import Mathlib

/-!
Verification of the claw-lite turn-orchestration core: a shallow embedding of
the session store (sessionStore.ts), the path sandbox and tool executor
(runTurn.ts), the tool-call normalizer, the inline tool-call text recognizer
(tryParseToolCall) and the turn loop, together with theorems settling the
frozen specification claims.

Strings from the JavaScript side are modelled as lists of characters
(List Char); JavaScript exceptions are modelled with Except; the filesystem
and the model backend are oracles passed explicitly.
-/

namespace ClawLite

/-- The left-brace character, kept as a named constant. -/
def lbrace : Char := Char.ofNat 123

/-- The right-brace character, kept as a named constant. -/
def rbrace : Char := Char.ofNat 125

/-- JSON whitespace characters (space, newline, tab, carriage return). -/
def wsChar (c : Char) : Bool :=
  c = ' ' || c = Char.ofNat 10 || c = Char.ofNat 9 || c = Char.ofNat 13

/-- ASCII decimal digit test. -/
def digitChar (c : Char) : Bool := '0' ≤ c && c ≤ '9'

/-- JSON values as produced by JSON.parse; a number keeps its lexeme verbatim. -/
inductive Json where
  | null : Json
  | bool (b : Bool) : Json
  | num (lex : List Char) : Json
  | str (s : List Char) : Json
  | arr (xs : List Json) : Json
  | obj (kvs : List (List Char × Json)) : Json

mutual
/-- Boolean structural equality on JSON values. -/
def jeq : Json → Json → Bool
  | .null, .null => true
  | .bool a, .bool b => a = b
  | .num a, .num b => a = b
  | .str a, .str b => a = b
  | .arr a, .arr b => jeqL a b
  | .obj a, .obj b => jeqM a b
  | _, _ => false

/-- Boolean equality on JSON value lists. -/
def jeqL : List Json → List Json → Bool
  | [], [] => true
  | a :: as_, b :: bs => jeq a b && jeqL as_ bs
  | _, _ => false

/-- Boolean equality on JSON member lists. -/
def jeqM : List (List Char × Json) → List (List Char × Json) → Bool
  | [], [] => true
  | a :: as_, b :: bs => (a.1 = b.1 : Bool) && jeq a.2 b.2 && jeqM as_ bs
  | _, _ => false
end

mutual
theorem jeq_iff : ∀ a b : Json, jeq a b = true ↔ a = b
  | .null, b => by cases b <;> simp [jeq]
  | .bool a, b => by cases b <;> simp [jeq]
  | .num a, b => by cases b <;> simp [jeq]
  | .str a, b => by cases b <;> simp [jeq]
  | .arr a, b => by
      cases b <;> simp [jeq]
      exact jeqL_iff a _
  | .obj a, b => by
      cases b <;> simp [jeq]
      exact jeqM_iff a _

theorem jeqL_iff : ∀ a b : List Json, jeqL a b = true ↔ a = b
  | [], b => by cases b <;> simp [jeqL]
  | a :: as_, b => by
      cases b with
      | nil => simp [jeqL]
      | cons b bs =>
        simp only [jeqL, Bool.and_eq_true, List.cons.injEq]
        exact and_congr (jeq_iff a b) (jeqL_iff as_ bs)

theorem jeqM_iff : ∀ a b : List (List Char × Json), jeqM a b = true ↔ a = b
  | [], b => by cases b <;> simp [jeqM]
  | a :: as_, b => by
      cases b with
      | nil => simp [jeqM]
      | cons b bs =>
        simp only [jeqM, Bool.and_eq_true, List.cons.injEq, decide_eq_true_eq,
          Prod.ext_iff, jeq_iff a.2 b.2, jeqM_iff as_ bs]
end

instance : DecidableEq Json := fun a b =>
  decidable_of_iff (jeq a b = true) (jeq_iff a b)

/-- Drop leading JSON whitespace. -/
def skipWs : List Char → List Char
  | [] => []
  | c :: cs => if wsChar c then skipWs cs else c :: cs

/-- Drop trailing whitespace. -/
def dropEndWs (cs : List Char) : List Char := (skipWs cs.reverse).reverse

/-- Model of the JavaScript String.prototype.trim on our whitespace set. -/
def trimL (cs : List Char) : List Char := dropEndWs (skipWs cs)

/-- Lower-case hexadecimal digit for a value below 16. -/
def hexDigit (n : Nat) : Char :=
  if n < 10 then Char.ofNat (48 + n) else Char.ofNat (87 + n)

/-- Escape one character the way JSON.stringify does (control characters
below 0x20 that have no short escape become a u-escape). -/
def escChar (c : Char) : List Char :=
  if c = '"' then ['\\', '"']
  else if c = '\\' then ['\\', '\\']
  else if c = Char.ofNat 10 then ['\\', 'n']
  else if c = Char.ofNat 13 then ['\\', 'r']
  else if c = Char.ofNat 9 then ['\\', 't']
  else if c = Char.ofNat 8 then ['\\', 'b']
  else if c = Char.ofNat 12 then ['\\', 'f']
  else if c.toNat < 32 then
    ['\\', 'u', '0', '0', hexDigit (c.toNat / 16), hexDigit (c.toNat % 16)]
  else [c]

/-- Escape a whole string body. -/
def escString (s : List Char) : List Char := (s.map escChar).flatten

mutual
/-- Model of JSON.stringify on JSON values. -/
def emitJson : Json → List Char
  | .null => 'n' :: 'u' :: 'l' :: 'l' :: []
  | .bool true => 't' :: 'r' :: 'u' :: 'e' :: []
  | .bool false => 'f' :: 'a' :: 'l' :: 's' :: 'e' :: []
  | .num lex => lex
  | .str s => '"' :: (escString s ++ ['"'])
  | .arr xs => '[' :: (emitElems xs ++ [']'])
  | .obj kvs => lbrace :: (emitMembers kvs ++ [rbrace])

/-- Stringify array elements, comma separated. -/
def emitElems : List Json → List Char
  | [] => []
  | [x] => emitJson x
  | x :: y :: xs => emitJson x ++ ',' :: emitElems (y :: xs)

/-- Stringify object members, comma separated. -/
def emitMembers : List (List Char × Json) → List Char
  | [] => []
  | [(k, v)] => '"' :: (escString k ++ '"' :: ':' :: emitJson v)
  | (k, v) :: m :: kvs =>
      '"' :: (escString k ++ '"' :: ':' :: emitJson v) ++ ',' :: emitMembers (m :: kvs)
end

/-- Hexadecimal digit value. -/
def parseHex (c : Char) : Option Nat :=
  if '0' ≤ c && c ≤ '9' then some (c.toNat - 48)
  else if 'a' ≤ c && c ≤ 'f' then some (c.toNat - 87)
  else if 'A' ≤ c && c ≤ 'F' then some (c.toNat - 55)
  else none

/-- Read a JSON string body after the opening quote; returns the decoded
characters and the input remaining after the closing quote. -/
def parseStringBody : List Char → Option (List Char × List Char)
  | [] => none
  | c :: cs =>
    if c = '"' then some ([], cs)
    else if c = '\\' then
      match cs with
      | [] => none
      | 'u' :: h1 :: h2 :: h3 :: h4 :: cs2 =>
        match parseHex h1, parseHex h2, parseHex h3, parseHex h4 with
        | some a, some b, some c3, some d =>
          (parseStringBody cs2).map
            (fun r => (Char.ofNat (a * 4096 + b * 256 + c3 * 16 + d) :: r.1, r.2))
        | _, _, _, _ => none
      | e :: cs2 =>
        if e = '"' then (parseStringBody cs2).map (fun r => ('"' :: r.1, r.2))
        else if e = '\\' then (parseStringBody cs2).map (fun r => ('\\' :: r.1, r.2))
        else if e = '/' then (parseStringBody cs2).map (fun r => ('/' :: r.1, r.2))
        else if e = 'b' then
          (parseStringBody cs2).map (fun r => (Char.ofNat 8 :: r.1, r.2))
        else if e = 'f' then
          (parseStringBody cs2).map (fun r => (Char.ofNat 12 :: r.1, r.2))
        else if e = 'n' then
          (parseStringBody cs2).map (fun r => (Char.ofNat 10 :: r.1, r.2))
        else if e = 'r' then
          (parseStringBody cs2).map (fun r => (Char.ofNat 13 :: r.1, r.2))
        else if e = 't' then
          (parseStringBody cs2).map (fun r => (Char.ofNat 9 :: r.1, r.2))
        else none
    else if c.toNat < 32 then none
    else (parseStringBody cs).map (fun r => (c :: r.1, r.2))

/-- Take the longest run of decimal digits. -/
def takeDigits : List Char → List Char × List Char
  | [] => ([], [])
  | c :: cs =>
    if digitChar c then (c :: (takeDigits cs).1, (takeDigits cs).2)
    else ([], c :: cs)

/-- Integer part of a JSON number: a zero, or a nonzero digit then digits. -/
def parseIntPart : List Char → Option (List Char × List Char)
  | [] => none
  | c :: cs =>
    if c = '0' then some (['0'], cs)
    else if digitChar c then some (c :: (takeDigits cs).1, (takeDigits cs).2)
    else none

/-- Fraction part: consumed only when a dot is followed by a digit. -/
def parseFracPart (cs : List Char) : List Char × List Char :=
  match cs with
  | '.' :: cs1 =>
    match takeDigits cs1 with
    | ([], _) => ([], cs)
    | (ds, rest) => ('.' :: ds, rest)
  | _ => ([], cs)

/-- Exponent part: consumed only when well formed. -/
def parseExpPart (cs : List Char) : List Char × List Char :=
  match cs with
  | e :: cs1 =>
    if e = 'e' || e = 'E' then
      match cs1 with
      | s :: cs2 =>
        if s = '+' || s = '-' then
          match takeDigits cs2 with
          | ([], _) => ([], cs)
          | (ds, rest) => (e :: s :: ds, rest)
        else
          match takeDigits cs1 with
          | ([], _) => ([], cs)
          | (ds, rest) => (e :: ds, rest)
      | [] => ([], cs)
    else ([], cs)
  | [] => ([], cs)

/-- Split a leading minus sign off a number lexeme. -/
def negSplit : List Char → List Char × List Char
  | '-' :: r => (['-'], r)
  | cs => ([], cs)

/-- Read a JSON number lexeme. -/
def parseNum (cs : List Char) : Option (List Char × List Char) :=
  match parseIntPart (negSplit cs).2 with
  | none => none
  | some (ip, cs2) =>
    some ((negSplit cs).1 ++ ip ++ (parseFracPart cs2).1 ++
            (parseExpPart (parseFracPart cs2).2).1,
          (parseExpPart (parseFracPart cs2).2).2)

mutual
/-- Fueled model of JSON.parse: read one JSON value. -/
def parseValue : Nat → List Char → Option (Json × List Char)
  | 0, _ => none
  | f + 1, cs =>
    match skipWs cs with
    | [] => none
    | c :: cs1 =>
      if c = 'n' then
        match cs1 with
        | 'u' :: 'l' :: 'l' :: r => some (.null, r)
        | _ => none
      else if c = 't' then
        match cs1 with
        | 'r' :: 'u' :: 'e' :: r => some (.bool true, r)
        | _ => none
      else if c = 'f' then
        match cs1 with
        | 'a' :: 'l' :: 's' :: 'e' :: r => some (.bool false, r)
        | _ => none
      else if c = '"' then (parseStringBody cs1).map (fun r => (.str r.1, r.2))
      else if c = '-' || digitChar c then
        (parseNum (c :: cs1)).map (fun r => (.num r.1, r.2))
      else if c = '[' then
        match skipWs cs1 with
        | ']' :: r => some (.arr [], r)
        | _ => (parseElems f cs1).map (fun r => (.arr r.1, r.2))
      else if c = lbrace then
        match skipWs cs1 with
        | c2 :: r =>
          if c2 = rbrace then some (.obj [], r)
          else (parseMembers f cs1).map (fun r => (.obj r.1, r.2))
        | [] => none
      else none

/-- Read the elements of a nonempty JSON array, up to the closing bracket. -/
def parseElems : Nat → List Char → Option (List Json × List Char)
  | 0, _ => none
  | f + 1, cs =>
    match parseValue f cs with
    | none => none
    | some (v, rest) =>
      match skipWs rest with
      | ',' :: r => (parseElems f r).map (fun t => (v :: t.1, t.2))
      | ']' :: r => some ([v], r)
      | _ => none

/-- Read the members of a nonempty JSON object, up to the closing brace. -/
def parseMembers : Nat → List Char → Option (List (List Char × Json) × List Char)
  | 0, _ => none
  | f + 1, cs =>
    match skipWs cs with
    | [] => none
    | c :: cs1 =>
      if c = '"' then
        match parseStringBody cs1 with
        | none => none
        | some (k, rest) =>
          match skipWs rest with
          | ':' :: r =>
            match parseValue f r with
            | none => none
            | some (v, rest2) =>
              match skipWs rest2 with
              | ',' :: r2 => (parseMembers f r2).map (fun t => ((k, v) :: t.1, t.2))
              | c3 :: r2 => if c3 = rbrace then some ([(k, v)], r2) else none
              | [] => none
          | _ => none
      else none
end

/-- Model of JSON.parse on a whole text: one value, surrounded by
whitespace only; anything else is a parse failure (a thrown SyntaxError). -/
def parseJson (cs : List Char) : Option Json :=
  match parseValue (cs.length + 1) cs with
  | some (v, rest) => if skipWs rest = [] then some v else none
  | none => none

/-! ### Round trip: parsing a stringified value gives the value back -/

theorem skipWs_not_ws {c : Char} (h : wsChar c = false) (cs : List Char) :
    skipWs (c :: cs) = c :: cs := by
  simp [skipWs, h]

theorem parseHex_hexDigit : ∀ n, n < 16 → parseHex (hexDigit n) = some n := by decide

theorem psb_quote (cs : List Char) : parseStringBody ('"' :: cs) = some ([], cs) := by
  rw [parseStringBody.eq_def]; simp

theorem psb_plain {c : Char} (h1 : c ≠ '"') (h2 : c ≠ '\\') (h3 : ¬ c.toNat < 32)
    (cs : List Char) :
    parseStringBody (c :: cs) = (parseStringBody cs).map (fun r => (c :: r.1, r.2)) := by
  rw [parseStringBody.eq_def]; simp [h1, h2, h3]

theorem psb_u {h1 h2 h3 h4 : Char} {a b c3 d : Nat}
    (e1 : parseHex h1 = some a) (e2 : parseHex h2 = some b)
    (e3 : parseHex h3 = some c3) (e4 : parseHex h4 = some d) (cs : List Char) :
    parseStringBody ('\\' :: 'u' :: h1 :: h2 :: h3 :: h4 :: cs) =
      (parseStringBody cs).map
        (fun r => (Char.ofNat (a * 4096 + b * 256 + c3 * 16 + d) :: r.1, r.2)) := by
  rw [parseStringBody.eq_def]; simp [e1, e2, e3, e4]

theorem parseStringBody_esc (s rest : List Char) :
    parseStringBody (escString s ++ '"' :: rest) = some (s, rest) := by
  induction s with
  | nil => simpa [escString] using psb_quote rest
  | cons c s ih =>
    have hesc : escString (c :: s) = escChar c ++ escString s := by
      simp [escString]
    rw [hesc, List.append_assoc]
    by_cases h1 : c = '"'
    · subst h1
      simp only [escChar, if_true, List.cons_append, List.nil_append]
      rw [parseStringBody.eq_def]; simp [ih]
    by_cases h2 : c = '\\'
    · subst h2
      simp only [escChar, if_true, if_false, List.cons_append, List.nil_append]
      rw [parseStringBody.eq_def]; simp [ih]
    by_cases h3 : c = Char.ofNat 10
    · subst h3
      simp only [escChar, if_true, if_false, List.cons_append, List.nil_append]
      rw [parseStringBody.eq_def]; simp [ih]
    by_cases h4 : c = Char.ofNat 13
    · subst h4
      simp only [escChar, if_true, if_false, List.cons_append, List.nil_append]
      rw [parseStringBody.eq_def]; simp [ih]
    by_cases h5 : c = Char.ofNat 9
    · subst h5
      simp only [escChar, if_true, if_false, List.cons_append, List.nil_append]
      rw [parseStringBody.eq_def]; simp [ih]
    by_cases h6 : c = Char.ofNat 8
    · subst h6
      simp only [escChar, if_true, if_false, List.cons_append, List.nil_append]
      rw [parseStringBody.eq_def]; simp [ih]
    by_cases h7 : c = Char.ofNat 12
    · subst h7
      simp only [escChar, if_true, if_false, List.cons_append, List.nil_append]
      rw [parseStringBody.eq_def]; simp [ih]
    by_cases h8 : c.toNat < 32
    · have hdiv : c.toNat / 16 < 16 := by omega
      have hmod : c.toNat % 16 < 16 := Nat.mod_lt _ (by omega)
      have h0 : parseHex '0' = some 0 := by decide
      simp only [escChar, h1, h2, h3, h4, h5, h6, h7, h8, if_false, if_true,
        List.cons_append, List.nil_append]
      rw [psb_u h0 h0 (parseHex_hexDigit _ hdiv) (parseHex_hexDigit _ hmod), ih]
      have hval : 0 * 4096 + 0 * 256 + c.toNat / 16 * 16 + c.toNat % 16 = c.toNat := by
        omega
      rw [hval, Char.ofNat_toNat]
      rfl
    · simp only [escChar, h1, h2, h3, h4, h5, h6, h7, h8, if_false,
        List.cons_append, List.nil_append]
      rw [psb_plain h1 h2 h8, ih]
      rfl

/-- Characters that could extend a preceding number lexeme. -/
def numCont (c : Char) : Bool := digitChar c || c = '.' || c = 'e' || c = 'E'

/-- The input cannot extend a preceding number lexeme. -/
def numStop : List Char → Prop
  | [] => True
  | c :: _ => numCont c = false

/-- The input does not begin with a digit. -/
def headNotDigit : List Char → Prop
  | [] => True
  | c :: _ => digitChar c = false

theorem numStop_headNotDigit {cs : List Char} (h : numStop cs) : headNotDigit cs := by
  cases cs with
  | nil => trivial
  | cons c t =>
    simp only [numStop, numCont, Bool.or_eq_false_iff] at h
    simp only [headNotDigit]
    exact h.1.1.1

theorem takeDigits_app {cs rest ds r : List Char} (h : takeDigits cs = (ds, r))
    (hstop : r = [] → headNotDigit rest) :
    takeDigits (cs ++ rest) = (ds, r ++ rest) := by
  induction cs generalizing ds r with
  | nil =>
    simp only [takeDigits, Prod.mk.injEq] at h
    obtain ⟨rfl, rfl⟩ := h
    have hr := hstop rfl
    cases rest with
    | nil => simp [takeDigits]
    | cons c t =>
      simp only [headNotDigit] at hr
      simp [takeDigits, hr]
  | cons c cs ih =>
    by_cases hc : digitChar c = true
    · simp only [takeDigits, hc, if_true, Prod.mk.injEq] at h
      obtain ⟨h1, h2⟩ := h
      subst h1
      subst h2
      have ihh := @ih (takeDigits cs).1 (takeDigits cs).2 rfl hstop
      simp only [List.cons_append, takeDigits, hc, if_true]
      rw [List.append_eq, ihh]
    · simp only [takeDigits, hc, if_false, Prod.mk.injEq] at h
      obtain ⟨rfl, rfl⟩ := h
      simp [takeDigits, hc]

theorem parseIntPart_app {cs rest ip r : List Char} (h : parseIntPart cs = some (ip, r))
    (hstop : r = [] → headNotDigit rest) :
    parseIntPart (cs ++ rest) = some (ip, r ++ rest) := by
  cases cs with
  | nil => simp [parseIntPart] at h
  | cons c t =>
    by_cases hc : c = '0'
    · subst hc
      simp only [parseIntPart, if_true, Option.some.injEq, Prod.mk.injEq] at h
      obtain ⟨rfl, rfl⟩ := h
      simp [parseIntPart]
    · by_cases hd : digitChar c = true
      · simp only [parseIntPart, hc, hd, if_false, if_true, Option.some.injEq,
          Prod.mk.injEq] at h
        obtain ⟨rfl, rfl⟩ := h
        have htd := @takeDigits_app t rest (takeDigits t).1 (takeDigits t).2
          rfl hstop
        simp only [List.cons_append, parseIntPart, hc, hd, if_false, if_true]
        rw [htd]
      · simp [parseIntPart, hc, hd] at h

theorem takeDigits_nil_not_digit {cs r : List Char} (h : takeDigits cs = ([], r)) :
    headNotDigit cs := by
  cases cs with
  | nil => trivial
  | cons c t =>
    by_cases hc : digitChar c = true
    · simp [takeDigits, hc] at h
    · simpa [headNotDigit] using hc

theorem parseFracPart_app {cs rest fp r : List Char} (h : parseFracPart cs = (fp, r))
    (hstop : r = [] → numStop rest) (hne : r ≠ ['.']) :
    parseFracPart (cs ++ rest) = (fp, r ++ rest) := by
  cases cs with
  | nil =>
    simp only [parseFracPart, Prod.mk.injEq] at h
    obtain ⟨rfl, rfl⟩ := h
    have hr := hstop rfl
    cases rest with
    | nil => simp [parseFracPart]
    | cons c t =>
      have hcd : c ≠ '.' := by
        intro hcc
        subst hcc
        simp [numStop, numCont] at hr
      rw [parseFracPart.eq_def]
      split
      · next heq => exact absurd (List.cons.injEq .. ▸ heq).1 hcd
      · rfl
  | cons c t =>
    by_cases hc : c = '.'
    · subst hc
      rw [parseFracPart.eq_def] at h
      simp only at h
      rcases htd : takeDigits t with ⟨ds, r0⟩
      rw [htd] at h
      cases ds with
      | nil =>
        simp only [Prod.mk.injEq] at h
        obtain ⟨rfl, rfl⟩ := h
        have ht : t ≠ [] := by
          intro hteq
          exact hne (by rw [hteq])
        cases t with
        | nil => exact absurd rfl ht
        | cons c1 t1 =>
          have hnd : digitChar c1 = false := by
            have := takeDigits_nil_not_digit htd
            simpa [headNotDigit] using this
          rw [List.cons_append, parseFracPart.eq_def]
          simp only [List.cons_append]
          rw [takeDigits.eq_def]
          simp [hnd]
      | cons d dt =>
        simp only [Prod.mk.injEq] at h
        obtain ⟨rfl, rfl⟩ := h
        have htd2 := @takeDigits_app t rest _ _ htd
          (fun hr0 => numStop_headNotDigit (hstop hr0))
        rw [List.cons_append, parseFracPart.eq_def]
        simp only [List.cons_append]
        rw [htd2]
    · rw [parseFracPart.eq_def] at h
      split at h
      · next heq => exact absurd (List.cons.injEq .. ▸ heq).1 hc
      · simp only [Prod.mk.injEq] at h
        obtain ⟨rfl, rfl⟩ := h
        rw [List.cons_append, parseFracPart.eq_def]
        split
        · next heq => exact absurd (List.cons.injEq .. ▸ heq).1 hc
        · rfl

theorem parseExpPart_app0 {cs rest ep : List Char} (h : parseExpPart cs = (ep, []))
    (hstop : numStop rest) :
    parseExpPart (cs ++ rest) = (ep, rest) := by
  cases cs with
  | nil =>
    simp only [parseExpPart, Prod.mk.injEq] at h
    obtain ⟨rfl, _⟩ := h
    cases rest with
    | nil => simp [parseExpPart]
    | cons c t =>
      have hce : (c = 'e' || c = 'E') = false := by
        simp only [numStop, numCont, Bool.or_eq_false_iff] at hstop
        simp only [Bool.or_eq_false_iff]
        exact ⟨hstop.1.2, hstop.2⟩
      simp [parseExpPart, hce]
  | cons e cs1 =>
    by_cases he : (e = 'e' || e = 'E') = true
    · cases cs1 with
      | nil =>
        simp [parseExpPart, he] at h
      | cons s cs2 =>
        by_cases hs : (s = '+' || s = '-') = true
        · rw [parseExpPart.eq_def] at h
          simp only [he, if_true, hs] at h
          rcases htd : takeDigits cs2 with ⟨ds, r0⟩
          rw [htd] at h
          cases ds with
          | nil => simp at h
          | cons d dt =>
            simp only [Prod.mk.injEq] at h
            obtain ⟨rfl, rfl⟩ := h
            have htd2 := @takeDigits_app cs2 rest _ _ htd
              (fun _ => numStop_headNotDigit hstop)
            rw [List.cons_append, List.cons_append, parseExpPart.eq_def]
            simp only [he, if_true, hs]
            rw [htd2]
            simp
        · rw [parseExpPart.eq_def] at h
          simp only [he, if_true, hs, if_false] at h
          rcases htd : takeDigits (s :: cs2) with ⟨ds, r0⟩
          rw [htd] at h
          cases ds with
          | nil => simp at h
          | cons d dt =>
            simp only [Prod.mk.injEq] at h
            obtain ⟨rfl, rfl⟩ := h
            have htd2 := @takeDigits_app (s :: cs2) rest _ _ htd
              (fun _ => numStop_headNotDigit hstop)
            rw [List.cons_append] at htd2
            rw [List.cons_append, parseExpPart.eq_def]
            simp only [he, if_true, hs, if_false, List.cons_append, Bool.false_eq_true]
            rw [htd2]
            simp
    · simp [parseExpPart, he] at h

theorem negSplit_other {c : Char} (hc : c ≠ '-') (l : List Char) :
    negSplit (c :: l) = ([], c :: l) := by
  rw [negSplit.eq_def]
  split
  · next heq => exact absurd (List.cons.injEq .. ▸ heq).1 hc
  · rfl

theorem negSplit_app {lex rest : List Char} (hne : lex ≠ []) :
    negSplit (lex ++ rest) = ((negSplit lex).1, (negSplit lex).2 ++ rest) := by
  cases lex with
  | nil => exact absurd rfl hne
  | cons c t =>
    by_cases hc : c = '-'
    · subst hc; rfl
    · rw [List.cons_append, negSplit_other hc, negSplit_other hc]
      rfl

theorem parseNum_app {lex rest : List Char} (h : parseNum lex = some (lex, []))
    (hstop : numStop rest) :
    parseNum (lex ++ rest) = some (lex, rest) := by
  rw [parseNum.eq_def] at h
  rcases hip : parseIntPart (negSplit lex).2 with _ | ⟨ip, cs2⟩
  · rw [hip] at h; simp at h
  · rw [hip] at h
    simp only [Option.some.injEq, Prod.mk.injEq] at h
    obtain ⟨hlex, hrem⟩ := h
    have hne : lex ≠ [] := by
      intro he
      rw [he] at hip
      simp [negSplit, parseIntPart] at hip
    have hdot : (parseFracPart cs2).2 ≠ ['.'] := by
      intro hd
      rw [hd] at hrem
      have hto : parseExpPart ['.'] = ([], ['.']) := rfl
      rw [hto] at hrem
      simp at hrem
    have hexp : parseExpPart (parseFracPart cs2).2 =
        ((parseExpPart (parseFracPart cs2).2).1, (parseExpPart (parseFracPart cs2).2).2) :=
      Prod.mk.eta.symm
    rw [hrem] at hexp
    have hfr := @parseFracPart_app cs2 rest (parseFracPart cs2).1
      (parseFracPart cs2).2 rfl (fun _ => hstop) hdot
    have hip2 := @parseIntPart_app _ rest _ _ hip
      (fun _ => numStop_headNotDigit hstop)
    have hex2 := @parseExpPart_app0 _ rest _ hexp hstop
    rw [parseNum.eq_def, negSplit_app hne]
    simp only
    rw [hip2]
    simp only [hfr, hex2, hlex]

theorem parseNum_head {lex : List Char} (h : parseNum lex = some (lex, [])) :
    ∃ c t, lex = c :: t ∧ (c = '-' ∨ digitChar c = true) := by
  cases lex with
  | nil => exact absurd h (by simp [parseNum, negSplit, parseIntPart])
  | cons c t =>
    by_cases hc : c = '-'
    · exact ⟨c, t, rfl, .inl hc⟩
    · refine ⟨c, t, rfl, .inr ?_⟩
      rw [parseNum.eq_def, negSplit_other hc] at h
      simp only at h
      rcases hip : parseIntPart (c :: t) with _ | ⟨ip, cs2⟩
      · rw [hip] at h; simp at h
      · by_cases h0 : c = '0'
        · subst h0; decide
        · by_cases hd : digitChar c = true
          · exact hd
          · simp [parseIntPart, h0, hd] at hip

/-- Characters that can appear in a JSON number lexeme. -/
def numChar (c : Char) : Bool :=
  digitChar c || c = '-' || c = '+' || c = '.' || c = 'e' || c = 'E'

theorem takeDigits_chars (cs : List Char) : ∀ c ∈ (takeDigits cs).1, digitChar c = true := by
  induction cs with
  | nil => simp [takeDigits]
  | cons a t ih =>
    by_cases ha : digitChar a = true
    · simp only [takeDigits, ha, if_true, List.mem_cons]
      rintro c (rfl | hc)
      · exact ha
      · exact ih c hc
    · simp [takeDigits, ha]

theorem parseIntPart_chars {cs ip r : List Char} (h : parseIntPart cs = some (ip, r)) :
    ∀ c ∈ ip, digitChar c = true := by
  cases cs with
  | nil => simp [parseIntPart] at h
  | cons a t =>
    by_cases h0 : a = '0'
    · subst h0
      simp only [parseIntPart, if_true, Option.some.injEq, Prod.mk.injEq] at h
      obtain ⟨rfl, rfl⟩ := h
      simp [digitChar]
    · by_cases hd : digitChar a = true
      · simp only [parseIntPart, h0, hd, if_false, if_true, Option.some.injEq,
          Prod.mk.injEq] at h
        obtain ⟨rfl, rfl⟩ := h
        intro c hc
        rcases List.mem_cons.1 hc with rfl | hc2
        · exact hd
        · exact takeDigits_chars t c hc2
      · simp [parseIntPart, h0, hd] at h

theorem parseFracPart_chars (cs : List Char) :
    ∀ c ∈ (parseFracPart cs).1, numChar c = true := by
  cases cs with
  | nil => simp [parseFracPart]
  | cons a cs1 =>
    by_cases ha : a = '.'
    · subst ha
      rcases htd : takeDigits cs1 with ⟨ds, r0⟩
      have hall := takeDigits_chars cs1
      rw [htd] at hall
      rw [parseFracPart.eq_def]
      simp only [htd]
      cases ds with
      | nil => simp
      | cons d dt =>
        simp only [List.mem_cons]
        rintro c (rfl | rfl | hc)
        · decide
        · have := hall c (by simp)
          simp [numChar, this]
        · have := hall c (by simpa using Or.inr hc)
          simp [numChar, this]
    · rw [parseFracPart.eq_def]
      split
      · next heq => exact absurd (List.cons.injEq .. ▸ heq).1 ha
      · simp

theorem parseExpPart_chars (cs : List Char) :
    ∀ c ∈ (parseExpPart cs).1, numChar c = true := by
  cases cs with
  | nil => simp [parseExpPart]
  | cons e cs1 =>
    by_cases he : (e = 'e' || e = 'E') = true
    · have hne : numChar e = true := by
        rcases Bool.or_eq_true_iff.1 he with h | h
        · simp only [decide_eq_true_eq] at h
          subst h; decide
        · simp only [decide_eq_true_eq] at h
          subst h; decide
      cases cs1 with
      | nil => simp [parseExpPart, he]
      | cons s cs2 =>
        by_cases hs : (s = '+' || s = '-') = true
        · have hns : numChar s = true := by
            rcases Bool.or_eq_true_iff.1 hs with h | h
            · simp only [decide_eq_true_eq] at h
              subst h; decide
            · simp only [decide_eq_true_eq] at h
              subst h; decide
          rcases htd : takeDigits cs2 with ⟨ds, r0⟩
          have hall := takeDigits_chars cs2
          rw [htd] at hall
          rw [parseExpPart.eq_def]
          simp only [he, if_true, hs, htd]
          cases ds with
          | nil => simp
          | cons d dt =>
            simp only [List.mem_cons]
            rintro c (rfl | rfl | hc)
            · exact hne
            · exact hns
            · have := hall c (by simpa using hc)
              simp [numChar, this]
        · rcases htd : takeDigits (s :: cs2) with ⟨ds, r0⟩
          have hall := takeDigits_chars (s :: cs2)
          rw [htd] at hall
          rw [parseExpPart.eq_def]
          simp only [he, if_true, hs, if_false, Bool.false_eq_true, htd]
          cases ds with
          | nil => simp
          | cons d dt =>
            simp only [List.mem_cons]
            rintro c (rfl | hc)
            · exact hne
            · have := hall c (by simpa using hc)
              simp [numChar, this]
    · simp [parseExpPart, he]

theorem parseNum_chars {cs l r : List Char} (h : parseNum cs = some (l, r)) :
    ∀ c ∈ l, numChar c = true := by
  rw [parseNum.eq_def] at h
  rcases hip : parseIntPart (negSplit cs).2 with _ | ⟨ip, cs2⟩
  · rw [hip] at h; simp at h
  · rw [hip] at h
    simp only [Option.some.injEq, Prod.mk.injEq] at h
    obtain ⟨hlex, _⟩ := h
    intro c hc
    rw [← hlex] at hc
    simp only [List.append_assoc, List.mem_append] at hc
    rcases hc with hc | hc | hc | hc
    · have : (negSplit cs).1 = [] ∨ (negSplit cs).1 = ['-'] := by
        rw [negSplit.eq_def]
        split
        · right; rfl
        · left; rfl
      rcases this with hn | hn <;> rw [hn] at hc
      · simp at hc
      · simp only [List.mem_singleton] at hc
        subst hc; decide
    · have hd := parseIntPart_chars hip c hc
      simp [numChar, hd]
    · exact parseFracPart_chars cs2 c hc
    · exact parseExpPart_chars (parseFracPart cs2).2 c hc

/-! ### Well-formed values and the fuel bound -/

mutual
/-- Well-formed JSON values: every number lexeme re-reads as itself, so
stringify output parses back. All values JSON.parse produces are well formed.
-/
def wfJ : Json → Bool
  | .null => true
  | .bool _ => true
  | .num lex => decide (parseNum lex = some (lex, []))
  | .str _ => true
  | .arr xs => wfL xs
  | .obj kvs => wfM kvs

/-- Well-formedness of a list of JSON values. -/
def wfL : List Json → Bool
  | [] => true
  | x :: xs => wfJ x && wfL xs

/-- Well-formedness of a list of JSON object members. -/
def wfM : List (List Char × Json) → Bool
  | [] => true
  | kv :: kvs => wfJ kv.2 && wfM kvs
end

mutual
/-- Fuel sufficient for parseValue to read the value back. -/
def needV : Json → Nat
  | .arr (x :: xs) => 1 + needE (x :: xs)
  | .obj (kv :: kvs) => 1 + needM (kv :: kvs)
  | _ => 1

/-- Fuel sufficient for parseElems to read the elements back. -/
def needE : List Json → Nat
  | [] => 0
  | x :: xs => 1 + needV x + needE xs

/-- Fuel sufficient for parseMembers to read the members back. -/
def needM : List (List Char × Json) → Nat
  | [] => 0
  | kv :: kvs => 1 + needV kv.2 + needM kvs
end

/-- Followers allowed after a stringified value: a number must not be
followed by a character that could extend its lexeme. -/
def goodF : Json → List Char → Prop
  | .num _, rest => numStop rest
  | _, _ => True

theorem digit_not_ws {c : Char} (h : digitChar c = true) : wsChar c = false := by
  by_contra hw
  have hw2 : wsChar c = true := by
    cases hwc : wsChar c
    · exact absurd hwc hw
    · rfl
  simp only [wsChar, Bool.or_eq_true_iff, decide_eq_true_eq] at hw2
  rcases hw2 with ((rfl | rfl) | rfl) | rfl <;> simp [digitChar] at h

theorem digit_ne {c d : Char} (h : digitChar c = true) (hd : digitChar d = false) :
    c ≠ d := by
  intro heq
  rw [heq] at h
  rw [h] at hd
  exact absurd hd (by decide)

/-! ### Dispatch lemmas: parseValue at one fuel step on a known head -/

theorem parseValue_obj_dispatch (f : Nat) (kvs : List (List Char × Json))
    (mem rest : List Char)
    (hpm : parseMembers f (('"' :: mem) ++ rbrace :: rest) = some (kvs, rest)) :
    parseValue (f + 1) (lbrace :: (('"' :: mem) ++ rbrace :: rest)) =
      some (.obj kvs, rest) := by
  rw [parseValue.eq_2]
  rw [skipWs_not_ws (by decide)]
  simp only []
  rw [if_neg (by decide), if_neg (by decide), if_neg (by decide), if_neg (by decide),
    if_neg (by decide), if_neg (by decide), if_pos trivial]
  simp only [List.cons_append]
  rw [skipWs_not_ws (by decide)]
  simp only [if_neg (show ¬ ('"' = rbrace) by decide)]
  rw [← List.cons_append, hpm]
  rfl

theorem parseValue_arr_dispatch (f : Nat) (xs : List Json) (c : Char)
    (el rest : List Char)
    (hws : wsChar c = false) (hbr : c ≠ ']')
    (hpe : parseElems f ((c :: el) ++ ']' :: rest) = some (xs, rest)) :
    parseValue (f + 1) ('[' :: ((c :: el) ++ ']' :: rest)) = some (.arr xs, rest) := by
  rw [parseValue.eq_2]
  rw [skipWs_not_ws (by decide)]
  simp only []
  rw [if_neg (by decide), if_neg (by decide), if_neg (by decide), if_neg (by decide),
    if_neg (by decide), if_pos trivial]
  simp only [List.cons_append]
  rw [skipWs_not_ws hws]
  split
  · next heq =>
    exact absurd (List.cons.injEq .. ▸ heq).1 hbr
  · rw [← List.cons_append, hpe]
    rfl

theorem parseValue_num_dispatch (f : Nat) (lex rest : List Char)
    (hwf : parseNum lex = some (lex, [])) (hstop : numStop rest) :
    parseValue (f + 1) (lex ++ rest) = some (.num lex, rest) := by
  obtain ⟨c, t, rfl, hc⟩ := parseNum_head hwf
  have hnum := parseNum_app hwf hstop
  have hws : wsChar c = false := by
    rcases hc with rfl | hd
    · decide
    · exact digit_not_ws hd
  have hn : c ≠ 'n' := by
    rcases hc with rfl | hd
    · decide
    · exact digit_ne hd (by decide)
  have ht : c ≠ 't' := by
    rcases hc with rfl | hd
    · decide
    · exact digit_ne hd (by decide)
  have hf : c ≠ 'f' := by
    rcases hc with rfl | hd
    · decide
    · exact digit_ne hd (by decide)
  have hq : c ≠ '"' := by
    rcases hc with rfl | hd
    · decide
    · exact digit_ne hd (by decide)
  have hcond : (decide (c = '-') || digitChar c) = true := by
    rcases hc with rfl | hd
    · decide
    · simp [hd]
  rw [List.cons_append, parseValue.eq_2]
  rw [skipWs_not_ws hws]
  simp only []
  rw [if_neg hn, if_neg ht, if_neg hf, if_neg hq, if_pos hcond,
    ← List.cons_append, hnum]
  rfl

theorem parseValue_null_dispatch (f : Nat) (rest : List Char) :
    parseValue (f + 1) (emitJson .null ++ rest) = some (.null, rest) := by
  rw [parseValue.eq_2]
  simp [emitJson, skipWs, wsChar]

theorem parseValue_bool_dispatch (f : Nat) (b : Bool) (rest : List Char) :
    parseValue (f + 1) (emitJson (.bool b) ++ rest) = some (.bool b, rest) := by
  cases b <;>
  · rw [parseValue.eq_2]
    simp [emitJson, skipWs, wsChar]

theorem parseValue_str_dispatch (f : Nat) (s rest : List Char) :
    parseValue (f + 1) (emitJson (.str s) ++ rest) = some (.str s, rest) := by
  rw [parseValue.eq_2]
  simp [emitJson, skipWs, wsChar, parseStringBody_esc]

theorem parseValue_arrnil_dispatch (f : Nat) (rest : List Char) :
    parseValue (f + 1) (emitJson (.arr []) ++ rest) = some (.arr [], rest) := by
  rw [parseValue.eq_2]
  simp [emitJson, emitElems, skipWs, wsChar, digitChar]

theorem parseValue_objnil_dispatch (f : Nat) (rest : List Char) :
    parseValue (f + 1) (emitJson (.obj []) ++ rest) = some (.obj [], rest) := by
  rw [parseValue.eq_2]
  simp [emitJson, emitMembers, skipWs, wsChar, digitChar, lbrace, rbrace]

theorem goodF_cons {v : Json} {c : Char} (hc : numCont c = false) (t : List Char) :
    goodF v (c :: t) := by
  cases v
  case num lex => exact hc
  all_goals trivial

theorem emit_head (v : Json) (hwf : wfJ v = true) :
    ∃ c t, emitJson v = c :: t ∧ wsChar c = false ∧ c ≠ ']' := by
  cases v with
  | null => exact ⟨'n', _, rfl, by decide, by decide⟩
  | bool b =>
    cases b
    · exact ⟨'f', _, rfl, by decide, by decide⟩
    · exact ⟨'t', _, rfl, by decide, by decide⟩
  | num lex =>
    have hn : parseNum lex = some (lex, []) := by simpa [wfJ] using hwf
    obtain ⟨c, t, hlex, hc⟩ := parseNum_head hn
    refine ⟨c, t, by simp [emitJson, hlex], ?_, ?_⟩
    · rcases hc with rfl | hd
      · decide
      · exact digit_not_ws hd
    · rcases hc with rfl | hd
      · decide
      · exact digit_ne hd (by decide)
  | str s => exact ⟨'"', _, rfl, by decide, by decide⟩
  | arr xs => exact ⟨'[', _, rfl, by decide, by decide⟩
  | obj kvs => exact ⟨lbrace, _, rfl, by decide, by decide⟩

theorem emitElems_cons_head (x : Json) (xs : List Json) (c : Char) (t : List Char)
    (h : emitJson x = c :: t) : ∃ t2, emitElems (x :: xs) = c :: t2 := by
  cases xs with
  | nil => exact ⟨t, by simp [emitElems, h]⟩
  | cons y ys => exact ⟨t ++ ',' :: emitElems (y :: ys), by simp [emitElems, h]⟩

theorem emitMembers_cons_head (kv : List Char × Json) (kvs : List (List Char × Json)) :
    ∃ t, emitMembers (kv :: kvs) = '"' :: t := by
  rcases kv with ⟨k, v⟩
  cases kvs with
  | nil => exact ⟨_, rfl⟩
  | cons m ms => exact ⟨_, rfl⟩

mutual
theorem rtV : ∀ (v : Json) (rest : List Char) (f : Nat), wfJ v = true →
    needV v ≤ f → goodF v rest → parseValue f (emitJson v ++ rest) = some (v, rest)
  | v, _, 0, _, hf, _ => by
      exfalso
      cases v with
      | null => simp [needV] at hf
      | bool b => simp [needV] at hf
      | num lex => simp [needV] at hf
      | str s => simp [needV] at hf
      | arr xs => cases xs <;> simp [needV] at hf
      | obj kvs => cases kvs <;> simp [needV] at hf
  | .null, rest, f + 1, _, _, _ => parseValue_null_dispatch f rest
  | .bool b, rest, f + 1, _, _, _ => parseValue_bool_dispatch f b rest
  | .str s, rest, f + 1, _, _, _ => parseValue_str_dispatch f s rest
  | .num lex, rest, f + 1, hwf, _, hgf => by
      have hn : parseNum lex = some (lex, []) := by simpa [wfJ] using hwf
      simpa [emitJson] using parseValue_num_dispatch f lex rest hn hgf
  | .arr [], rest, f + 1, _, _, _ => parseValue_arrnil_dispatch f rest
  | .obj [], rest, f + 1, _, _, _ => parseValue_objnil_dispatch f rest
  | .arr (x :: xs), rest, f + 1, hwf, hf, _ => by
      have hwl : wfL (x :: xs) = true := by simpa [wfJ] using hwf
      have hwx : wfJ x = true := by
        simp only [wfL, Bool.and_eq_true] at hwl
        exact hwl.1
      have hfe : needE (x :: xs) ≤ f := by
        simp only [needV] at hf
        omega
      have hpe := rtE (x :: xs) rest f (by simp) hwl hfe
      obtain ⟨c, t, hemit, hws, hbr⟩ := emit_head x hwx
      obtain ⟨t2, he2⟩ := emitElems_cons_head x xs c t hemit
      have hshape : emitJson (.arr (x :: xs)) ++ rest =
          '[' :: ((c :: t2) ++ ']' :: rest) := by
        simp [emitJson, he2]
      rw [hshape]
      refine parseValue_arr_dispatch f (x :: xs) c t2 rest hws hbr ?_
      rw [← he2]
      exact hpe
  | .obj (kv :: kvs), rest, f + 1, hwf, hf, _ => by
      have hwm : wfM (kv :: kvs) = true := by simpa [wfJ] using hwf
      have hfm : needM (kv :: kvs) ≤ f := by
        simp only [needV] at hf
        omega
      have hpm := rtM (kv :: kvs) rest f (by simp) hwm hfm
      obtain ⟨mem, hm⟩ := emitMembers_cons_head kv kvs
      have hshape : emitJson (.obj (kv :: kvs)) ++ rest =
          lbrace :: (('"' :: mem) ++ rbrace :: rest) := by
        simp [emitJson, hm]
      rw [hshape]
      refine parseValue_obj_dispatch f (kv :: kvs) mem rest ?_
      rw [← hm]
      exact hpm

theorem rtE : ∀ (xs : List Json) (rest : List Char) (f : Nat), xs ≠ [] →
    wfL xs = true → needE xs ≤ f →
    parseElems f (emitElems xs ++ ']' :: rest) = some (xs, rest)
  | [], _, _, hne, _, _ => absurd rfl hne
  | x :: xs, _, 0, _, _, hf => by simp [needE] at hf
  | [x], rest, f + 1, _, hwl, hf => by
      have hwx : wfJ x = true := by
        simp only [wfL, Bool.and_eq_true] at hwl
        exact hwl.1
      have hfx : needV x ≤ f := by
        simp only [needE] at hf
        omega
      have hx := rtV x (']' :: rest) f hwx hfx (goodF_cons (by decide) rest)
      rw [show emitElems [x] ++ ']' :: rest = emitJson x ++ ']' :: rest by
        simp [emitElems]]
      rw [parseElems.eq_2, hx]
      simp only []
      rw [skipWs_not_ws (by decide)]
      rfl
  | x :: y :: ys, rest, f + 1, _, hwl, hf => by
      have hwx : wfJ x = true := by
        simp only [wfL, Bool.and_eq_true] at hwl
        exact hwl.1
      have hwyl : wfL (y :: ys) = true := by
        simp only [wfL, Bool.and_eq_true] at hwl ⊢
        exact hwl.2
      have hfx : needV x ≤ f := by
        simp only [needE] at hf
        omega
      have hfyl : needE (y :: ys) ≤ f := by
        simp only [needE] at hf ⊢
        omega
      have hx := rtV x (',' :: (emitElems (y :: ys) ++ ']' :: rest)) f hwx hfx
        (goodF_cons (by decide) _)
      have hrest := rtE (y :: ys) rest f (by simp) hwyl hfyl
      rw [show emitElems (x :: y :: ys) ++ ']' :: rest =
          emitJson x ++ ',' :: (emitElems (y :: ys) ++ ']' :: rest) by
        simp [emitElems]]
      rw [parseElems.eq_2, hx]
      simp only []
      rw [skipWs_not_ws (by decide)]
      simp only []
      rw [hrest]
      rfl

theorem rtM : ∀ (kvs : List (List Char × Json)) (rest : List Char) (f : Nat),
    kvs ≠ [] → wfM kvs = true → needM kvs ≤ f →
    parseMembers f (emitMembers kvs ++ rbrace :: rest) = some (kvs, rest)
  | [], _, _, hne, _, _ => absurd rfl hne
  | kv :: kvs, _, 0, _, _, hf => by simp [needM] at hf
  | [(k, v)], rest, f + 1, _, hwm, hf => by
      have hwv : wfJ v = true := by
        simp only [wfM, Bool.and_eq_true] at hwm
        exact hwm.1
      have hfv : needV v ≤ f := by
        simp only [needM] at hf
        omega
      have hv := rtV v (rbrace :: rest) f hwv hfv (goodF_cons (by decide) rest)
      rw [show emitMembers [(k, v)] ++ rbrace :: rest =
          '"' :: (escString k ++ '"' :: ':' :: (emitJson v ++ rbrace :: rest)) by
        simp [emitMembers]]
      rw [parseMembers.eq_2]
      rw [skipWs_not_ws (by decide)]
      simp only []
      rw [if_pos trivial]
      rw [parseStringBody_esc]
      simp only []
      rw [skipWs_not_ws (by decide)]
      simp only []
      rw [hv]
      simp only []
      rw [skipWs_not_ws (by decide)]
      split
      · next heq =>
        exact absurd (List.cons.injEq .. ▸ heq).1 (by decide)
      · rename_i a ch tl hne heq
        have h1 : ch = rbrace := ((List.cons.injEq .. ▸ heq).1).symm
        have h2 : tl = rest := ((List.cons.injEq .. ▸ heq).2).symm
        subst h1
        subst h2
        rw [if_pos rfl]
      · next heq => simp at heq
  | (k, v) :: m :: ms, rest, f + 1, _, hwm, hf => by
      have hwv : wfJ v = true := by
        simp only [wfM, Bool.and_eq_true] at hwm
        exact hwm.1
      have hwms : wfM (m :: ms) = true := by
        simp only [wfM, Bool.and_eq_true] at hwm ⊢
        exact hwm.2
      have hfv : needV v ≤ f := by
        simp only [needM] at hf
        omega
      have hfms : needM (m :: ms) ≤ f := by
        simp only [needM] at hf ⊢
        omega
      have hv := rtV v (',' :: (emitMembers (m :: ms) ++ rbrace :: rest)) f hwv hfv
        (goodF_cons (by decide) _)
      have hrest := rtM (m :: ms) rest f (by simp) hwms hfms
      rw [show emitMembers ((k, v) :: m :: ms) ++ rbrace :: rest =
          '"' :: (escString k ++ '"' :: ':' ::
            (emitJson v ++ ',' :: (emitMembers (m :: ms) ++ rbrace :: rest))) by
        simp [emitMembers]]
      rw [parseMembers.eq_2]
      rw [skipWs_not_ws (by decide)]
      simp only []
      rw [if_pos trivial]
      rw [parseStringBody_esc]
      simp only []
      rw [skipWs_not_ws (by decide)]
      simp only []
      rw [hv]
      simp only []
      rw [skipWs_not_ws (by decide)]
      simp only []
      rw [hrest]
      rfl
end

theorem goodF_nil (v : Json) : goodF v [] := by
  cases v <;> trivial

mutual
theorem needV_le : ∀ (v : Json), wfJ v = true → needV v ≤ (emitJson v).length
  | .null, _ => by simp [needV, emitJson]
  | .bool b, _ => by cases b <;> simp [needV, emitJson]
  | .str s, _ => by simp [needV, emitJson]
  | .num lex, h => by
      have hn : parseNum lex = some (lex, []) := by simpa [wfJ] using h
      have hne : lex ≠ [] := by
        intro heq
        rw [heq] at hn
        exact absurd hn (by decide)
      have : 1 ≤ lex.length := List.length_pos.2 hne
      simpa [needV, emitJson] using this
  | .arr [], _ => by simp [needV, emitJson]
  | .arr (x :: xs), h => by
      have hwl : wfL (x :: xs) = true := by simpa [wfJ] using h
      have := needE_le (x :: xs) hwl
      simp only [needV, emitJson, List.length_cons, List.length_append] at this ⊢
      omega
  | .obj [], _ => by simp [needV, emitJson]
  | .obj (kv :: kvs), h => by
      have hwm : wfM (kv :: kvs) = true := by simpa [wfJ] using h
      have := needM_le (kv :: kvs) hwm
      simp only [needV, emitJson, List.length_cons, List.length_append] at this ⊢
      omega

theorem needE_le : ∀ (xs : List Json), wfL xs = true →
    needE xs ≤ (emitElems xs).length + 1
  | [], _ => by simp [needE]
  | [x], h => by
      have hwx : wfJ x = true := by
        simp only [wfL, Bool.and_eq_true] at h
        exact h.1
      have := needV_le x hwx
      simp only [needE, emitElems]
      omega
  | x :: y :: ys, h => by
      have hwx : wfJ x = true := by
        simp only [wfL, Bool.and_eq_true] at h
        exact h.1
      have hwyl : wfL (y :: ys) = true := by
        simp only [wfL, Bool.and_eq_true] at h ⊢
        exact h.2
      have h1 := needV_le x hwx
      have h2 := needE_le (y :: ys) hwyl
      simp only [needE, emitElems, List.length_append, List.length_cons] at h2 ⊢
      omega

theorem needM_le : ∀ (kvs : List (List Char × Json)), wfM kvs = true →
    needM kvs ≤ (emitMembers kvs).length + 1
  | [], _ => by simp [needM]
  | [(k, v)], h => by
      have hwv : wfJ v = true := by
        simp only [wfM, Bool.and_eq_true] at h
        exact h.1
      have := needV_le v hwv
      simp only [needM, emitMembers, List.length_cons, List.length_append]
      omega
  | (k, v) :: m :: ms, h => by
      have hwv : wfJ v = true := by
        simp only [wfM, Bool.and_eq_true] at h
        exact h.1
      have hwms : wfM (m :: ms) = true := by
        simp only [wfM, Bool.and_eq_true] at h ⊢
        exact h.2
      have h1 := needV_le v hwv
      have h2 := needM_le (m :: ms) hwms
      simp only [needM, emitMembers, List.length_append, List.length_cons] at h2 ⊢
      omega
end

/-- Round trip: JSON.parse of JSON.stringify of a well-formed value gives the
value back. -/
theorem parseJson_emit (v : Json) (h : wfJ v = true) :
    parseJson (emitJson v) = some v := by
  unfold parseJson
  have hle : needV v ≤ (emitJson v).length + 1 :=
    le_trans (needV_le v h) (by omega)
  have hrt := rtV v [] ((emitJson v).length + 1) h hle (goodF_nil v)
  rw [List.append_nil] at hrt
  rw [hrt]
  simp [skipWs]

/-! ### Stringify output stays on one line -/

/-- The newline character. -/
def nlChar : Char := Char.ofNat 10

theorem escChar_no_nl (c : Char) : nlChar ∉ escChar c := by
  unfold escChar
  by_cases h1 : c = '"'
  · simp [h1]; decide
  by_cases h2 : c = '\\'
  · simp [h1, h2]; decide
  by_cases h3 : c = Char.ofNat 10
  · simp [h1, h2, h3]; decide
  by_cases h4 : c = Char.ofNat 13
  · simp [h1, h2, h3, h4]; decide
  by_cases h5 : c = Char.ofNat 9
  · simp [h1, h2, h3, h4, h5]; decide
  by_cases h6 : c = Char.ofNat 8
  · simp [h1, h2, h3, h4, h5, h6]; decide
  by_cases h7 : c = Char.ofNat 12
  · simp [h1, h2, h3, h4, h5, h6, h7]; decide
  by_cases h8 : c.toNat < 32
  · simp only [h1, h2, h3, h4, h5, h6, h7, h8, if_false, if_true, List.mem_cons]
    have hd1 : nlChar ≠ hexDigit (c.toNat / 16) := by
      have : ∀ n, n < 16 → nlChar ≠ hexDigit n := by decide
      exact this _ (by omega)
    have hd2 : nlChar ≠ hexDigit (c.toNat % 16) := by
      have : ∀ n, n < 16 → nlChar ≠ hexDigit n := by decide
      exact this _ (Nat.mod_lt _ (by omega))
    rintro (h | h | h | h | h | h | h) <;> first
      | exact absurd h (by decide)
      | exact absurd h hd1
      | exact absurd h hd2
  · simp only [h1, h2, h3, h4, h5, h6, h7, h8, if_false, List.mem_singleton]
    intro heq
    exact h3 (by rw [← heq]; rfl)

theorem escString_no_nl (s : List Char) : nlChar ∉ escString s := by
  intro hmem
  unfold escString at hmem
  rw [List.mem_flatten] at hmem
  obtain ⟨l, hl, hc⟩ := hmem
  rw [List.mem_map] at hl
  obtain ⟨c, _, rfl⟩ := hl
  exact escChar_no_nl c hc

mutual
theorem emit_no_nl : ∀ (v : Json), wfJ v = true → nlChar ∉ emitJson v
  | .null, _ => by decide
  | .bool b, _ => by cases b <;> decide
  | .str s, _ => by
      simp only [emitJson, List.mem_cons, List.mem_append, List.mem_singleton]
      rintro (h | h | h)
      · exact absurd h (by decide)
      · exact escString_no_nl s h
      · exact absurd h (by decide)
  | .num lex, h => by
      have hn : parseNum lex = some (lex, []) := by simpa [wfJ] using h
      intro hmem
      have := parseNum_chars hn nlChar (by simpa [emitJson] using hmem)
      exact absurd this (by decide)
  | .arr xs, h => by
      have hwl : wfL xs = true := by simpa [wfJ] using h
      simp only [emitJson, List.mem_cons, List.mem_append, List.mem_singleton]
      rintro (h2 | h2 | h2)
      · exact absurd h2 (by decide)
      · exact emitE_no_nl xs hwl h2
      · exact absurd h2 (by decide)
  | .obj kvs, h => by
      have hwm : wfM kvs = true := by simpa [wfJ] using h
      simp only [emitJson, List.mem_cons, List.mem_append, List.mem_singleton]
      rintro (h2 | h2 | h2)
      · exact absurd h2 (by decide)
      · exact emitM_no_nl kvs hwm h2
      · exact absurd h2 (by decide)

theorem emitE_no_nl : ∀ (xs : List Json), wfL xs = true → nlChar ∉ emitElems xs
  | [], _ => by simp [emitElems]
  | [x], h => by
      have hwx : wfJ x = true := by
        simp only [wfL, Bool.and_eq_true] at h
        exact h.1
      simpa [emitElems] using emit_no_nl x hwx
  | x :: y :: ys, h => by
      have hwx : wfJ x = true := by
        simp only [wfL, Bool.and_eq_true] at h
        exact h.1
      have hwyl : wfL (y :: ys) = true := by
        simp only [wfL, Bool.and_eq_true] at h ⊢
        exact h.2
      simp only [emitElems, List.mem_append, List.mem_cons]
      rintro (h2 | h2 | h2)
      · exact emit_no_nl x hwx h2
      · exact absurd h2 (by decide)
      · exact emitE_no_nl (y :: ys) hwyl h2

theorem emitM_no_nl : ∀ (kvs : List (List Char × Json)), wfM kvs = true →
    nlChar ∉ emitMembers kvs
  | [], _ => by simp [emitMembers]
  | [(k, v)], h => by
      have hwv : wfJ v = true := by
        simp only [wfM, Bool.and_eq_true] at h
        exact h.1
      simp only [emitMembers, List.mem_cons, List.mem_append]
      rintro (h2 | h2 | h2 | h2 | h2)
      · exact absurd h2 (by decide)
      · exact escString_no_nl k h2
      · exact absurd h2 (by decide)
      · exact absurd h2 (by decide)
      · exact emit_no_nl v hwv h2
  | (k, v) :: m :: ms, h => by
      have hwv : wfJ v = true := by
        simp only [wfM, Bool.and_eq_true] at h
        exact h.1
      have hwms : wfM (m :: ms) = true := by
        simp only [wfM, Bool.and_eq_true] at h ⊢
        exact h.2
      intro h2
      simp only [emitMembers, List.cons_append, List.mem_cons, List.mem_append] at h2
      have hK := escString_no_nl k
      have hV := emit_no_nl v hwv
      have hM := emitM_no_nl (m :: ms) hwms
      have c1 : ¬ (nlChar = '"') := by decide
      have c2 : ¬ (nlChar = ':') := by decide
      have c3 : ¬ (nlChar = ',') := by decide
      tauto
end

/-! ### Splitting file content on newlines (String.prototype.split) -/

/-- Model of text.split with separator newline: every occurrence splits,
empty pieces kept. -/
def splitNl : List Char → List (List Char)
  | [] => [[]]
  | c :: cs =>
    if c = nlChar then [] :: splitNl cs
    else
      match splitNl cs with
      | [] => [[c]]
      | l :: ls => (c :: l) :: ls

theorem splitNl_ne_nil (cs : List Char) : splitNl cs ≠ [] := by
  cases cs with
  | nil => simp [splitNl]
  | cons c cs =>
    rw [splitNl.eq_def]
    by_cases hc : c = nlChar
    · simp [hc]
    · simp only [hc, if_false]
      split
      · simp
      · simp

theorem splitNl_line (line rest : List Char) (hnl : nlChar ∉ line) :
    splitNl (line ++ nlChar :: rest) = line :: splitNl rest := by
  induction line with
  | nil => simp [splitNl]
  | cons c t ih =>
    have hc : c ≠ nlChar := by
      intro heq
      exact hnl (heq ▸ List.mem_cons_self c t)
    have ht : nlChar ∉ t := fun hm => hnl (List.mem_cons_of_mem c hm)
    rw [List.cons_append, splitNl.eq_def]
    simp only [hc, if_false]
    rw [ih ht]

/-! ### Session store (sessionStore.ts, snapshot with safeSessionId) -/

/-- Conversation roles from the SessionEvent type. -/
inductive Role where
  | user
  | assistant
  | system
deriving DecidableEq

/-- Event kinds from the SessionEvent type. -/
inductive EvType where
  | message
  | toolCall
  | toolResult
deriving DecidableEq

/-- JSON spelling of a role. -/
def roleStr : Role → List Char
  | .user => "user".data
  | .assistant => "assistant".data
  | .system => "system".data

/-- JSON spelling of an event kind. -/
def typeStr : EvType → List Char
  | .message => "message".data
  | .toolCall => "toolCall".data
  | .toolResult => "toolResult".data

/-- The tool field of a tool-call event; args may be undefined (none). -/
structure ToolInfo where
  name : List Char
  args : Option Json
deriving DecidableEq

/-- A tool result: ok plus an optional result payload or error text. -/
structure ToolRes where
  ok : Bool
  result : Option Json
  error : Option (List Char)
deriving DecidableEq

/-- One session event as appended by runTurn (sessionStore.ts SessionEvent). -/
structure SessionEvent where
  id : List Char
  ts : List Char
  role : Role
  content : List Char
  type : EvType
  tool : Option ToolInfo := none
  toolResult : Option ToolRes := none
deriving DecidableEq

/-- JSON form of the tool field; an undefined args is omitted by
JSON.stringify. -/
def encodeToolInfo (t : ToolInfo) : Json :=
  .obj ([("name".data, .str t.name)] ++
    match t.args with
    | none => []
    | some a => [("args".data, a)])

/-- JSON form of a tool result; undefined fields are omitted. -/
def encodeToolRes (r : ToolRes) : Json :=
  .obj ([("ok".data, .bool r.ok)] ++
    (match r.result with
     | none => []
     | some p => [("result".data, p)]) ++
    (match r.error with
     | none => []
     | some e => [("error".data, .str e)]))

/-- JSON form of a session event, with the field order of the literals in
runTurn.ts; absent optional fields are omitted by JSON.stringify. -/
def encodeEvent (ev : SessionEvent) : Json :=
  .obj ([("id".data, .str ev.id), ("ts".data, .str ev.ts),
         ("role".data, .str (roleStr ev.role)),
         ("content".data, .str ev.content),
         ("type".data, .str (typeStr ev.type))] ++
    (match ev.tool with
     | none => []
     | some t => [("tool".data, encodeToolInfo t)]) ++
    (match ev.toolResult with
     | none => []
     | some r => [("toolResult".data, encodeToolRes r)]))

/-- Well-formedness of the JSON payloads carried inside an event. -/
def wfEvent (ev : SessionEvent) : Bool :=
  (match ev.tool with
   | none => true
   | some t =>
     match t.args with
     | none => true
     | some a => wfJ a) &&
  (match ev.toolResult with
   | none => true
   | some r =>
     match r.result with
     | none => true
     | some p => wfJ p)

theorem wfJ_encodeEvent (ev : SessionEvent) (h : wfEvent ev = true) :
    wfJ (encodeEvent ev) = true := by
  rcases ev with ⟨i, ts, role, content, ty, tool, tres⟩
  simp only [wfEvent, Bool.and_eq_true] at h
  obtain ⟨h1, h2⟩ := h
  unfold encodeEvent
  simp only
  cases tool with
  | none =>
    cases tres with
    | none => simp [wfJ, wfM]
    | some r =>
      simp only at h2
      unfold encodeToolRes
      cases hr : r.result with
      | none =>
        cases he : r.error with
        | none => simp [wfJ, wfM, hr, he]
        | some e => simp [wfJ, wfM, hr, he]
      | some p =>
        rw [hr] at h2
        simp only [] at h2
        cases he : r.error with
        | none => simp [wfJ, wfM, hr, he, h2]
        | some e => simp [wfJ, wfM, hr, he, h2]
  | some t =>
    simp only at h1
    unfold encodeToolInfo
    cases ht : t.args with
    | none =>
      cases tres with
      | none => simp [wfJ, wfM, ht]
      | some r =>
        simp only at h2
        unfold encodeToolRes
        cases hr : r.result with
        | none =>
          cases he : r.error with
          | none => simp [wfJ, wfM, ht, hr, he]
          | some e => simp [wfJ, wfM, ht, hr, he]
        | some p =>
          rw [hr] at h2
          simp only [] at h2
          cases he : r.error with
          | none => simp [wfJ, wfM, ht, hr, he, h2]
          | some e => simp [wfJ, wfM, ht, hr, he, h2]
    | some a =>
      rw [ht] at h1
      simp only [] at h1
      cases tres with
      | none => simp [wfJ, wfM, ht, h1]
      | some r =>
        simp only at h2
        unfold encodeToolRes
        cases hr : r.result with
        | none =>
          cases he : r.error with
          | none => simp [wfJ, wfM, ht, h1, hr, he]
          | some e => simp [wfJ, wfM, ht, h1, hr, he]
        | some p =>
          rw [hr] at h2
          simp only [] at h2
          cases he : r.error with
          | none => simp [wfJ, wfM, ht, h1, hr, he, h2]
          | some e => simp [wfJ, wfM, ht, h1, hr, he, h2]

/-- Trimming a line that starts with the open brace and ends with the close
brace changes nothing. -/
theorem trimL_braced (mid : List Char) :
    trimL (lbrace :: (mid ++ [rbrace])) = lbrace :: (mid ++ [rbrace]) := by
  unfold trimL
  rw [skipWs_not_ws (by decide)]
  unfold dropEndWs
  have h : (lbrace :: (mid ++ [rbrace])).reverse = rbrace :: (mid.reverse ++ [lbrace]) := by
    simp
  rw [h, skipWs_not_ws (by decide), ← h, List.reverse_reverse]

/-- File-system model: file path to file content. -/
def Store := List Char → Option (List Char)

/-- Characters the session-id sanitizer keeps: [a-zA-Z0-9._@-]. -/
def allowedSessChar (c : Char) : Bool :=
  ('a' ≤ c && c ≤ 'z') || ('A' ≤ c && c ≤ 'Z') || ('0' ≤ c && c ≤ '9') ||
    c = '.' || c = '_' || c = '@' || c = '-'

/-- safeSessionId from sessionStore.ts: every character outside
[a-zA-Z0-9._@-] is replaced by an underscore. -/
def safeSessionId (sessionId : List Char) : List Char :=
  sessionId.map (fun c => if allowedSessChar c then c else '_')

/-- sessionPath from sessionStore.ts: path.join(ROOT, safe + ".jsonl") with
ROOT = path.join(cwd, "state", "sessions"). The file-name component always
ends in ".jsonl", hence is never empty, "." or "..", so the join is plain
concatenation with one separator. -/
def sessionPath (cwd sessionId : List Char) : List Char :=
  cwd ++ "/state/sessions/".data ++ (safeSessionId sessionId ++ ".jsonl".data)

/-- appendEvent from sessionStore.ts: appendFile of one stringified event
plus a newline (creating the file when absent). -/
def appendEvent (cwd : List Char) (store : Store) (sessionId : List Char)
    (ev : SessionEvent) : Store :=
  fun p =>
    if p = sessionPath cwd sessionId then
      some ((store (sessionPath cwd sessionId)).getD [] ++
        (emitJson (encodeEvent ev) ++ [nlChar]))
    else store p

/-- JSON.parse applied in order to every kept line; the first malformed line
raises (modelled as Except.error), exactly as the unguarded JSON.parse call
inside readEvents does. -/
def parseLines : List (List Char) → Except (List Char) (List Json)
  | [] => .ok []
  | l :: ls =>
    match parseJson l with
    | none => .error "SyntaxError: Unexpected token in JSON".data
    | some v =>
      match parseLines ls with
      | .error e => .error e
      | .ok vs => .ok (v :: vs)

/-- readEvents from sessionStore.ts: a missing file yields the empty list
(the ENOENT branch); otherwise split the text on newlines, trim each line,
drop empty lines, and JSON.parse each remaining line. A parse failure is
rethrown: the catch only absorbs ENOENT. -/
def readEvents (cwd : List Char) (store : Store) (sessionId : List Char) :
    Except (List Char) (List Json) :=
  match store (sessionPath cwd sessionId) with
  | none => .ok []
  | some txt =>
    parseLines (((splitNl txt).map trimL).filter (fun l => !l.isEmpty))

/-- Fold appendEvent over a list of events. -/
def appendAll (cwd : List Char) (store : Store) (sessionId : List Char) :
    List SessionEvent → Store
  | [] => store
  | ev :: evs => appendAll cwd (appendEvent cwd store sessionId ev) sessionId evs

theorem appendAll_content (cwd sid : List Char) (evs : List SessionEvent) :
    ∀ (store : Store) (ev : SessionEvent),
      appendAll cwd store sid (ev :: evs) (sessionPath cwd sid) =
        some ((store (sessionPath cwd sid)).getD [] ++
          ((ev :: evs).map (fun e => emitJson (encodeEvent e) ++ [nlChar])).flatten) := by
  induction evs with
  | nil =>
    intro store ev
    simp [appendAll, appendEvent, List.append_assoc]
  | cons e2 rest ih =>
    intro store ev
    show appendAll cwd (appendEvent cwd store sid ev) sid (e2 :: rest)
        (sessionPath cwd sid) = _
    rw [ih (appendEvent cwd store sid ev) e2]
    simp [appendEvent, List.append_assoc]

theorem splitNl_lines (lines : List (List Char)) (h : ∀ l ∈ lines, nlChar ∉ l) :
    splitNl ((lines.map (fun l => l ++ [nlChar])).flatten) = lines ++ [[]] := by
  induction lines with
  | nil => simp [splitNl]
  | cons l ls ih =>
    have hl : nlChar ∉ l := h l (List.mem_cons_self l ls)
    have hls : ∀ x ∈ ls, nlChar ∉ x := fun x hx => h x (List.mem_cons_of_mem l hx)
    simp only [List.map_cons, List.flatten_cons, List.append_assoc,
      List.singleton_append]
    rw [splitNl_line l _ hl, ih hls]
    rfl

theorem parseLines_emit (evs : List SessionEvent)
    (hwf : ∀ ev ∈ evs, wfEvent ev = true) :
    parseLines (evs.map (fun ev => emitJson (encodeEvent ev))) =
      .ok (evs.map encodeEvent) := by
  induction evs with
  | nil => simp [parseLines]
  | cons ev evs ih =>
    have h1 : wfEvent ev = true := hwf ev (List.mem_cons_self ev evs)
    have h2 : ∀ x ∈ evs, wfEvent x = true :=
      fun x hx => hwf x (List.mem_cons_of_mem ev hx)
    simp only [List.map_cons, parseLines]
    rw [parseJson_emit _ (wfJ_encodeEvent ev h1), ih h2]

/-- After appending a list of well-formed events to a conversation whose
file did not exist, readEvents returns exactly their JSON records, in append
order. -/
theorem readEvents_appendAll (cwd : List Char) (store : Store)
    (sid : List Char) (evs : List SessionEvent)
    (hfresh : store (sessionPath cwd sid) = none)
    (hwf : ∀ ev ∈ evs, wfEvent ev = true) :
    readEvents cwd (appendAll cwd store sid evs) sid =
      .ok (evs.map encodeEvent) := by
  cases evs with
  | nil =>
    unfold readEvents appendAll
    rw [hfresh]
    rfl
  | cons ev0 evs0 =>
    unfold readEvents
    rw [appendAll_content cwd sid evs0 store ev0, hfresh]
    simp only [Option.getD_none, List.nil_append]
    generalize hgen : ev0 :: evs0 = evs
    rw [hgen] at hwf
    have hmm : evs.map (fun e => emitJson (encodeEvent e) ++ [nlChar]) =
        (evs.map (fun e => emitJson (encodeEvent e))).map (fun l => l ++ [nlChar]) := by
      rw [List.map_map]
      rfl
    rw [hmm]
    have hnl : ∀ l ∈ evs.map (fun e => emitJson (encodeEvent e)), nlChar ∉ l := by
      intro l hl
      rw [List.mem_map] at hl
      obtain ⟨ev, hev, rfl⟩ := hl
      exact emit_no_nl _ (wfJ_encodeEvent ev (hwf ev hev))
    rw [splitNl_lines _ hnl]
    have htrim : ∀ l ∈ evs.map (fun e => emitJson (encodeEvent e)), trimL l = l := by
      intro l hl
      rw [List.mem_map] at hl
      obtain ⟨ev, hev, rfl⟩ := hl
      exact trimL_braced _
    have hne : ∀ l ∈ evs.map (fun e => emitJson (encodeEvent e)),
        (!l.isEmpty) = true := by
      intro l hl
      rw [List.mem_map] at hl
      obtain ⟨ev, hev, rfl⟩ := hl
      simp [emitJson, encodeEvent]
    rw [List.map_append, List.filter_append]
    rw [List.map_congr_left htrim, List.map_id']
    rw [List.filter_eq_self.2 hne]
    have hemp : (([[]] : List (List Char)).map trimL).filter (fun l => !l.isEmpty) =
        [] := rfl
    rw [hemp, List.append_nil]
    exact parseLines_emit evs hwf

/-- Last-binding lookup in a JSON object, matching JavaScript semantics
where a later duplicate key wins. -/
def jlookup (kvs : List (List Char × Json)) (k : List Char) : Option Json :=
  match kvs with
  | [] => none
  | (k2, v) :: rest =>
    match jlookup rest k with
    | some v2 => some v2
    | none => if k2 = k then some v else none

/-- Key presence in a JSON object (the JavaScript in operator). -/
def hasKey (kvs : List (List Char × Json)) (k : List Char) : Bool :=
  (jlookup kvs k).isSome

/-- Read a role back from its JSON spelling. -/
def decodeRole (j : Json) : Option Role :=
  match j with
  | .str s =>
    if s = "user".data then some .user
    else if s = "assistant".data then some .assistant
    else if s = "system".data then some .system
    else none
  | _ => none

/-- Read an event kind back from its JSON spelling. -/
def decodeType (j : Json) : Option EvType :=
  match j with
  | .str s =>
    if s = "message".data then some .message
    else if s = "toolCall".data then some .toolCall
    else if s = "toolResult".data then some .toolResult
    else none
  | _ => none

/-- Read a tool field back from its JSON record. -/
def decodeToolInfo (j : Json) : Option ToolInfo :=
  match j with
  | .obj kvs =>
    match jlookup kvs "name".data with
    | some (.str n) => some ⟨n, jlookup kvs "args".data⟩
    | _ => none
  | _ => none

/-- Read a tool result back from its JSON record. -/
def decodeToolRes (j : Json) : Option ToolRes :=
  match j with
  | .obj kvs =>
    match jlookup kvs "ok".data with
    | some (.bool b) =>
      match jlookup kvs "error".data with
      | some (.str e) => some ⟨b, jlookup kvs "result".data, some e⟩
      | none => some ⟨b, jlookup kvs "result".data, none⟩
      | some _ => none
    | _ => none
  | _ => none

/-- Read a session event back from its JSON record. -/
def decodeEvent (j : Json) : Option SessionEvent :=
  match j with
  | .obj kvs =>
    match jlookup kvs "id".data, jlookup kvs "ts".data,
        (jlookup kvs "role".data).bind decodeRole,
        jlookup kvs "content".data,
        (jlookup kvs "type".data).bind decodeType with
    | some (.str i), some (.str ts), some role, some (.str content), some ty =>
      match (match jlookup kvs "tool".data with
             | none => some none
             | some tj => (decodeToolInfo tj).map some),
            (match jlookup kvs "toolResult".data with
             | none => some none
             | some rj => (decodeToolRes rj).map some) with
      | some tool, some tres => some ⟨i, ts, role, content, ty, tool, tres⟩
      | _, _ => none
    | _, _, _, _, _ => none
  | _ => none

theorem decodeRole_roleStr (r : Role) : decodeRole (.str (roleStr r)) = some r := by
  cases r <;> rfl

theorem decodeType_typeStr (t : EvType) : decodeType (.str (typeStr t)) = some t := by
  cases t <;> rfl

theorem decode_encodeEvent (ev : SessionEvent) :
    decodeEvent (encodeEvent ev) = some ev := by
  rcases ev with ⟨i, ts, role, content, ty, tool, tres⟩
  cases tool with
  | none =>
    cases tres with
    | none =>
      simp [encodeEvent, decodeEvent, jlookup, decodeRole_roleStr,
        decodeType_typeStr]
    | some r =>
      rcases r with ⟨ok, res, err⟩
      cases res <;> cases err <;>
        simp [encodeEvent, encodeToolRes, decodeEvent, decodeToolRes, jlookup,
          decodeRole_roleStr, decodeType_typeStr]
  | some t =>
    rcases t with ⟨n, args⟩
    cases args with
    | none =>
      cases tres with
      | none =>
        simp [encodeEvent, encodeToolInfo, decodeEvent, decodeToolInfo, jlookup,
          decodeRole_roleStr, decodeType_typeStr]
      | some r =>
        rcases r with ⟨ok, res, err⟩
        cases res <;> cases err <;>
          simp [encodeEvent, encodeToolInfo, encodeToolRes, decodeEvent,
            decodeToolInfo, decodeToolRes, jlookup, decodeRole_roleStr,
            decodeType_typeStr]
    | some a =>
      cases tres with
      | none =>
        simp [encodeEvent, encodeToolInfo, decodeEvent, decodeToolInfo, jlookup,
          decodeRole_roleStr, decodeType_typeStr]
      | some r =>
        rcases r with ⟨ok, res, err⟩
        cases res <;> cases err <;>
          simp [encodeEvent, encodeToolInfo, encodeToolRes, decodeEvent,
            decodeToolInfo, decodeToolRes, jlookup, decodeRole_roleStr,
            decodeType_typeStr]

/-! ### Path sandbox (resolveWorkspacePath in runTurn.ts, POSIX semantics) -/

/-- path.isAbsolute on POSIX: the path starts with a slash. -/
def isAbsolute : List Char → Bool
  | '/' :: _ => true
  | _ => false

/-- Split a string on every occurrence of a separator character, keeping
empty pieces, as String.prototype.split does. -/
def splitOnChar (sep : Char) : List Char → List (List Char)
  | [] => [[]]
  | c :: cs =>
    if c = sep then [] :: splitOnChar sep cs
    else
      match splitOnChar sep cs with
      | [] => [[c]]
      | l :: ls => (c :: l) :: ls

/-- One step of POSIX path normalization over an accumulator of segments:
empty and dot segments vanish, dot-dot pops (and vanishes at the root). -/
def normStep (acc : List (List Char)) (s : List Char) : List (List Char) :=
  if s = [] || s = ".".data then acc
  else if s = "..".data then acc.dropLast
  else acc ++ [s]

/-- Normalize the slash-split pieces of an absolute path. -/
def normSegs (segs : List (List Char)) : List (List Char) :=
  segs.foldl normStep []

/-- Render an absolute path from normalized segments. -/
def renderAbs (segs : List (List Char)) : List Char :=
  match segs with
  | [] => ['/']
  | _ => (segs.map (fun s => '/' :: s)).flatten

/-- Model of path.resolve(dir, rel) for an absolute dir on POSIX. -/
def resolvePath (dir rel : List Char) : List Char :=
  if isAbsolute rel then renderAbs (normSegs (splitOnChar '/' rel))
  else renderAbs (normSegs (splitOnChar '/' dir ++ splitOnChar '/' rel))

/-- Does the second list start with the first? -/
def startsWithL : List Char → List Char → Bool
  | [], _ => true
  | _ :: _, [] => false
  | a :: as_, b :: bs => a = b && startsWithL as_ bs

/-- resolveWorkspacePath from runTurn.ts; Except.error models a thrown
Error. The typeof check cannot fire in this embedding since rel is always a
string, leaving the emptiness test of the same guard. -/
def resolveWorkspacePath (workspaceDir rel : List Char) :
    Except (List Char) (List Char) :=
  if rel = [] then .error "args.path must be a non-empty string".data
  else if isAbsolute rel then .error "Absolute paths are not allowed".data
  else
    if startsWithL (renderAbs (normSegs (splitOnChar '/' workspaceDir)) ++ ['/'])
        (resolvePath workspaceDir rel) then
      .ok (resolvePath workspaceDir rel)
    else .error "Path escapes workspace".data

/-- isPlainObject from runTurn.ts on JSON values (with undefined as none):
only a non-null non-array object passes. -/
def isPlainObject : Option Json → Bool
  | some (.obj _) => true
  | _ => false

/-- A canonical tool call as consumed by runTool: tool name plus the raw
arguments value (undefined modelled as none). -/
structure ToolCall where
  tool : List Char
  args : Option Json
deriving DecidableEq

/-- runTool from runTurn.ts. The first component is the returned ToolRes,
or Except.error for an exception thrown out of runTool (resolveWorkspacePath
throws on a rejected path; readFileFs rejects on a failed read). The second
component instruments which filesystem paths were read. The browserSearch
capability delegates to the search oracle (the Playwright driving and the
numeric clamping happen behind it); its try/catch converts an oracle
failure to an ok:false result. -/
def runTool (fsRead : List Char → Except (List Char) (List Char))
    (search : Json → Except (List Char) Json)
    (workspaceDir : List Char) (call : ToolCall) :
    Except (List Char) ToolRes × List (List Char) :=
  if ¬ (call.tool = "fs.readText".data ∨ call.tool = "browserSearch".data) then
    (.ok ⟨false, none, some ("Tool not allowed: ".data ++ call.tool)⟩, [])
  else if call.tool = "fs.readText".data then
    match call.args with
    | some (.obj kvs) =>
      match jlookup kvs "path".data with
      | some (.str relPath) =>
        match resolveWorkspacePath workspaceDir relPath with
        | .error e => (.error e, [])
        | .ok fullPath =>
          match fsRead fullPath with
          | .error e => (.error e, [fullPath])
          | .ok text =>
            (.ok ⟨true, some (.obj [("path".data, .str relPath),
                                    ("text".data, .str text)]), none⟩, [fullPath])
      | _ => (.ok ⟨false, none, some "args.path must be a string".data⟩, [])
    | _ => (.ok ⟨false, none, some "args must be an object".data⟩, [])
  else
    match call.args with
    | some (.obj kvs) =>
      match jlookup kvs "query".data with
      | some (.str q) =>
        if q = [] then
          (.ok ⟨false, none, some "args.query must be a non-empty string".data⟩, [])
        else
          match search (.obj kvs) with
          | .ok result => (.ok ⟨true, some result, none⟩, [])
          | .error e =>
            (.ok ⟨false, none, some ("Search failed: ".data ++ e)⟩, [])
      | _ =>
        (.ok ⟨false, none, some "args.query must be a non-empty string".data⟩, [])
    | _ => (.ok ⟨false, none, some "args must be an object".data⟩, [])

/-- The orchestrator wrapper in runTurn.ts: try runTool, catch any thrown
error into an ok:false ToolRes. -/
def runToolCaught (fsRead : List Char → Except (List Char) (List Char))
    (search : Json → Except (List Char) Json)
    (workspaceDir : List Char) (call : ToolCall) : ToolRes × List (List Char) :=
  match runTool fsRead search workspaceDir call with
  | (.ok r, acc) => (r, acc)
  | (.error e, acc) => (⟨false, none, some e⟩, acc)

/-! ### The startsWith check is exactly strict segment descendance -/

theorem splitOnChar_ne_nil (sep : Char) (cs : List Char) :
    splitOnChar sep cs ≠ [] := by
  cases cs with
  | nil => simp [splitOnChar]
  | cons c cs =>
    rw [splitOnChar.eq_def]
    by_cases hc : c = sep
    · simp [hc]
    · simp only [hc, if_false]
      split
      · simp
      · simp

theorem splitOnChar_no_sep (sep : Char) (cs : List Char) :
    ∀ l ∈ splitOnChar sep cs, sep ∉ l := by
  induction cs with
  | nil =>
    intro l hl
    simp only [splitOnChar, List.mem_singleton] at hl
    subst hl
    simp
  | cons c cs ih =>
    intro l hl
    rw [splitOnChar.eq_def] at hl
    by_cases hc : c = sep
    · simp only [hc, if_true, List.mem_cons] at hl
      rcases hl with rfl | hl
      · simp
      · exact ih l hl
    · simp only [hc, if_false] at hl
      rcases hsp : splitOnChar sep cs with _ | ⟨l0, ls⟩
      · exact absurd hsp (splitOnChar_ne_nil sep cs)
      · rw [hsp] at hl
        simp only [List.mem_cons] at hl
        rcases hl with rfl | hl
        · intro hmem
          rcases List.mem_cons.1 hmem with rfl | hmem2
          · exact hc rfl
          · exact ih l0 (by rw [hsp]; exact List.mem_cons_self l0 ls) hmem2
        · exact ih l (by rw [hsp]; exact List.mem_cons_of_mem l0 hl)

theorem normSegs_props (segs : List (List Char))
    (h : ∀ s ∈ segs, '/' ∉ s) :
    ∀ s ∈ normSegs segs, s ≠ [] ∧ '/' ∉ s := by
  unfold normSegs
  suffices hgen : ∀ (acc : List (List Char)),
      (∀ s ∈ acc, s ≠ [] ∧ '/' ∉ s) →
      ∀ s ∈ segs.foldl normStep acc, s ≠ [] ∧ '/' ∉ s by
    exact hgen [] (by simp)
  induction segs with
  | nil =>
    intro acc hacc s hs
    exact hacc s hs
  | cons t rest ih =>
    intro acc hacc s hs
    have ht : '/' ∉ t := h t (List.mem_cons_self t rest)
    have hrest : ∀ x ∈ rest, '/' ∉ x := fun x hx => h x (List.mem_cons_of_mem t hx)
    have hstep : ∀ x ∈ normStep acc t, x ≠ [] ∧ '/' ∉ x := by
      intro x hx
      unfold normStep at hx
      split at hx
      · exact hacc x hx
      · split at hx
        · exact hacc x (List.dropLast_subset _ hx)
        · rcases List.mem_append.1 hx with hx2 | hx2
          · exact hacc x hx2
          · rw [List.mem_singleton] at hx2
            subst hx2
            refine ⟨?_, ht⟩
            next hne _ =>
              intro hxe
              exact hne (by simp [hxe])
    have := ih hrest (normStep acc t) hstep
    exact this s hs

/-- Flat rendering of a nonempty segment list. -/
def flatSegs (segs : List (List Char)) : List Char :=
  (segs.map (fun s => '/' :: s)).flatten

theorem seg_startsWith : ∀ (a b u v : List Char), '/' ∉ a → '/' ∉ b →
    (∃ u2, u = '/' :: u2) → (v = [] ∨ ∃ v2, v = '/' :: v2) →
    (startsWithL (a ++ u) (b ++ v) = true ↔ a = b ∧ startsWithL u v = true)
  | [], b, u, v, _, hb, ⟨u2, hu⟩, _ => by
    cases b with
    | nil => simp
    | cons d b2 =>
      have hd : d ≠ '/' := fun h => hb (h ▸ List.mem_cons_self d b2)
      subst hu
      simp only [List.nil_append, List.cons_append, startsWithL, Bool.and_eq_true,
        decide_eq_true_eq]
      constructor
      · rintro ⟨h1, _⟩
        exact absurd h1.symm hd
      · rintro ⟨h1, _⟩
        simp at h1
  | c :: a2, b, u, v, ha, hb, hu, hv => by
    have hc : c ≠ '/' := fun h => ha (h ▸ List.mem_cons_self c a2)
    have ha2 : '/' ∉ a2 := fun h => ha (List.mem_cons_of_mem c h)
    cases b with
    | nil =>
      rcases hv with rfl | ⟨v2, rfl⟩
      · simp [startsWithL]
      · simp only [List.nil_append, List.cons_append, startsWithL,
          Bool.and_eq_true, decide_eq_true_eq]
        constructor
        · rintro ⟨h1, _⟩
          exact absurd h1 hc
        · rintro ⟨h1, _⟩
          simp at h1
    | cons d b2 =>
      have hb2 : '/' ∉ b2 := fun h => hb (List.mem_cons_of_mem d h)
      have hrec := seg_startsWith a2 b2 u v ha2 hb2 hu hv
      simp only [List.cons_append, startsWithL, Bool.and_eq_true, decide_eq_true_eq,
        List.cons.injEq, List.append_eq]
      rw [hrec]
      constructor
      · rintro ⟨rfl, rfl, h3⟩
        exact ⟨⟨rfl, rfl⟩, h3⟩
      · rintro ⟨⟨rfl, rfl⟩, h3⟩
        exact ⟨rfl, rfl, h3⟩

theorem startsWith_flat_iff : ∀ (A B : List (List Char)),
    (∀ s ∈ A, s ≠ [] ∧ '/' ∉ s) → (∀ s ∈ B, s ≠ [] ∧ '/' ∉ s) →
    (startsWithL (flatSegs A ++ ['/']) (flatSegs B) = true ↔
      ∃ s rest, B = A ++ s :: rest)
  | [], [], _, _ => by simp [flatSegs, startsWithL]
  | [], b :: B2, _, _ => by
      constructor
      · intro _
        exact ⟨b, B2, rfl⟩
      · intro _
        simp [flatSegs, startsWithL]
  | a :: A2, [], hA, _ => by
      constructor
      · intro h
        exfalso
        have e1 : flatSegs (a :: A2) ++ ['/'] = '/' :: (a ++ (flatSegs A2 ++ ['/'])) := by
          simp [flatSegs]
        rw [e1] at h
        simp [flatSegs, startsWithL] at h
      · rintro ⟨s, rest, h⟩
        exact absurd h (by simp)
  | a :: A2, b :: B2, hA, hB => by
      have hasl : '/' ∉ a := (hA a (List.mem_cons_self a A2)).2
      have hbsl : '/' ∉ b := (hB b (List.mem_cons_self b B2)).2
      have hA2 : ∀ s ∈ A2, s ≠ [] ∧ '/' ∉ s :=
        fun s hs => hA s (List.mem_cons_of_mem a hs)
      have hB2 : ∀ s ∈ B2, s ≠ [] ∧ '/' ∉ s :=
        fun s hs => hB s (List.mem_cons_of_mem b hs)
      have hrec := startsWith_flat_iff A2 B2 hA2 hB2
      have hu : ∃ u2, flatSegs A2 ++ ['/'] = '/' :: u2 := by
        cases A2 with
        | nil => exact ⟨[], rfl⟩
        | cons x xs => exact ⟨x ++ (flatSegs xs ++ ['/']), by simp [flatSegs]⟩
      have hv : flatSegs B2 = [] ∨ ∃ v2, flatSegs B2 = '/' :: v2 := by
        cases B2 with
        | nil => exact .inl rfl
        | cons x xs => exact .inr ⟨x ++ flatSegs xs, by simp [flatSegs]⟩
      have hseg := seg_startsWith a b (flatSegs A2 ++ ['/']) (flatSegs B2)
        hasl hbsl hu hv
      have e1 : flatSegs (a :: A2) ++ ['/'] = '/' :: (a ++ (flatSegs A2 ++ ['/'])) := by
        simp [flatSegs]
      have e2 : flatSegs (b :: B2) = '/' :: (b ++ flatSegs B2) := by
        simp [flatSegs]
      rw [e1, e2]
      constructor
      · intro h
        have h2 : startsWithL (a ++ (flatSegs A2 ++ ['/'])) (b ++ flatSegs B2) = true := by
          simpa [startsWithL] using h
        obtain ⟨rfl, h3⟩ := hseg.1 h2
        obtain ⟨s, rest, rfl⟩ := hrec.1 h3
        exact ⟨s, rest, rfl⟩
      · rintro ⟨s, rest, heq⟩
        rw [List.cons_append, List.cons.injEq] at heq
        obtain ⟨rfl, rfl⟩ := heq
        have h3 := hrec.2 ⟨s, rest, rfl⟩
        have h2 := hseg.2 ⟨rfl, h3⟩
        simpa [startsWithL] using h2

/-- Strict segment descendance, decidably. -/
def strictDescendant (root segs : List (List Char)) : Bool :=
  decide (segs.take root.length = root) && decide (root.length < segs.length)

theorem strictDescendant_iff (root segs : List (List Char)) :
    strictDescendant root segs = true ↔ ∃ s rest, segs = root ++ s :: rest := by
  unfold strictDescendant
  simp only [Bool.and_eq_true, decide_eq_true_eq]
  constructor
  · rintro ⟨htake, hlen⟩
    have hsplit := List.take_append_drop root.length segs
    rcases hdrop : segs.drop root.length with _ | ⟨d, rest⟩
    · exfalso
      have := List.length_drop root.length segs
      rw [hdrop] at this
      simp at this
      omega
    · refine ⟨d, rest, ?_⟩
      rw [← hsplit, htake, hdrop]
  · rintro ⟨s, rest, rfl⟩
    constructor
    · exact List.take_left root (s :: rest)
    · simp

theorem startsWith_render_iff (A B : List (List Char))
    (hA : ∀ s ∈ A, s ≠ [] ∧ '/' ∉ s) (hB : ∀ s ∈ B, s ≠ [] ∧ '/' ∉ s)
    (hAne : A ≠ []) :
    startsWithL (renderAbs A ++ ['/']) (renderAbs B) = true ↔
      strictDescendant A B = true := by
  rw [strictDescendant_iff]
  have hrA : renderAbs A = flatSegs A := by
    cases A with
    | nil => exact absurd rfl hAne
    | cons a A2 => rfl
  rw [hrA]
  cases B with
  | nil =>
    rw [show renderAbs [] = ['/'] from rfl]
    constructor
    · intro h
      exfalso
      cases A with
      | nil => exact hAne rfl
      | cons a A2 =>
        have hane : a ≠ [] := (hA a (List.mem_cons_self a A2)).1
        cases a with
        | nil => exact hane rfl
        | cons c a2 =>
          revert h
          simp [flatSegs, startsWithL]
    · rintro ⟨s, rest, h⟩
      exact absurd h (by simp)
  | cons b B2 =>
    rw [show renderAbs (b :: B2) = flatSegs (b :: B2) from rfl]
    exact startsWith_flat_iff A (b :: B2) hA hB

/-! ### Tool-call normalizer (sanitizeToolName, normalizeToolCall) -/

/-- Characters the tool-name sanitizer keeps: [a-zA-Z0-9._-]. -/
def allowedToolChar (c : Char) : Bool :=
  ('a' ≤ c && c ≤ 'z') || ('A' ≤ c && c ≤ 'Z') || ('0' ≤ c && c ≤ '9') ||
    c = '.' || c = '_' || c = '-'

/-- The junk token stripped by sanitizeToolName. -/
def chanToken : List Char := "assistant<|channel|>".data

/-- Remove every occurrence of the junk token, scanning left to right, as
the global regex replace with the empty replacement does. -/
def stripChanToken : List Char → List Char
  | 'a' :: 's' :: 's' :: 'i' :: 's' :: 't' :: 'a' :: 'n' :: 't' :: '<' :: '|' ::
      'c' :: 'h' :: 'a' :: 'n' :: 'n' :: 'e' :: 'l' :: '|' :: '>' :: rest =>
    stripChanToken rest
  | c :: cs => c :: stripChanToken cs
  | [] => []

/-- sanitizeToolName from runTurn.ts: a non-string name gives the empty
string; otherwise the junk token is stripped, the result trimmed, and every
character outside the allowed class dropped. -/
def sanitizeToolName (name : Option Json) : List Char :=
  match name with
  | some (.str s) => (trimL (stripChanToken s)).filter allowedToolChar
  | _ => []

/-- One raw structured tool-call descriptor (OllamaToolCall): an optional
string id (a non-string id behaves like an absent one), the function name
value and the function arguments value, absent fields as none. -/
structure OllamaToolCall where
  id : Option (List Char)
  fnName : Option Json
  fnArgs : Option Json
deriving DecidableEq

/-- A normalized tool call. -/
structure NormCall where
  id : List Char
  tool : List Char
  args : Option Json
deriving DecidableEq

/-- The plain branch of normalizeToolCall: the sanitized outer function
name, or the sentinel when it sanitizes to nothing; arguments verbatim. -/
def normalizePlain (id : List Char) (fnName fnArgs : Option Json) : NormCall :=
  if (sanitizeToolName fnName).isEmpty then ⟨id, "unknown".data, fnArgs⟩
  else ⟨id, sanitizeToolName fnName, fnArgs⟩

/-- The id chosen for a normalized call: the descriptor its own non-empty
string id, else the fresh uid. -/
def normIdOf (uid : List Char) (tcid : Option (List Char)) : List Char :=
  match tcid with
  | some s => if s.isEmpty then uid else s
  | none => uid

/-- normalizeToolCall from runTurn.ts; uid is the fresh identifier used
when the descriptor carries no usable id. -/
def normalizeToolCall (uid : List Char) (tc : OllamaToolCall) : NormCall :=
  match tc.fnArgs with
  | some (.obj kvs) =>
    match jlookup kvs "tool".data with
    | some (.str tname) =>
      ⟨normIdOf uid tc.id, sanitizeToolName (some (.str tname)),
        jlookup kvs "args".data⟩
    | _ => normalizePlain (normIdOf uid tc.id) tc.fnName tc.fnArgs
  | _ => normalizePlain (normIdOf uid tc.id) tc.fnName tc.fnArgs

/-- tryParseToolCall from the inline-text recognizer: the whole trimmed
message must be a brace-delimited JSON object with a non-empty string tool
field and a present args field. -/
def tryParseToolCall (txt : List Char) : Option ToolCall :=
  match trimL txt with
  | [] => none
  | c :: t2 =>
    if c ≠ lbrace then none
    else if (c :: t2).getLast? ≠ some rbrace then none
    else
      match parseJson (c :: t2) with
      | some (.obj kvs) =>
        match jlookup kvs "tool".data with
        | some (.str s) =>
          if s.isEmpty then none
          else if hasKey kvs "args".data then some ⟨s, jlookup kvs "args".data⟩
          else none
        | _ => none
      | _ => none

/-! ### Turn orchestrator (runTurn.ts) -/

/-- Messages sent to the model backend: chat entries and tool-result
entries. -/
inductive OllamaMessage where
  | chat (role : List Char) (content : Option Json)
  | toolMsg (name tcid content : List Char)
deriving DecidableEq

/-- One model response: assistant text plus the structured tool-call
descriptors (an absent tool_calls list reads as the empty list). -/
structure ModelResp where
  content : List Char
  toolCalls : List OllamaToolCall

/-- The history filter in runTurn.ts: keep events whose type is message and
whose role is user, assistant or system; map each to a chat entry carrying
the raw content value. -/
def jsonToMsg (j : Json) : Option OllamaMessage :=
  match j with
  | .obj kvs =>
    match jlookup kvs "type".data, jlookup kvs "role".data with
    | some (.str ty), some (.str r) =>
      if ty = "message".data ∧
          (r = "user".data ∨ r = "assistant".data ∨ r = "system".data) then
        some (.chat r (jlookup kvs "content".data))
      else none
    | _, _ => none
  | _ => none

/-- Oracles and fixed configuration for one turn. The model backend is
modelled by the sequence of responses it returns on successive calls within
the turn; Except.error is a transport or protocol error thrown by
callOllama. -/
structure TurnCtx where
  model : Nat → Except (List Char) ModelResp
  fsRead : List Char → Except (List Char) (List Char)
  search : Json → Except (List Char) Json
  uidStream : Nat → List Char
  tsStream : Nat → List Char
  cwd : List Char
  agentId : List Char

/-- The fixed workspace root: path.join(cwd, workspaces, agentId). -/
def workspaceDirOf (ctx : TurnCtx) : List Char :=
  ctx.cwd ++ "/workspaces/".data ++ ctx.agentId

/-- Loop state: the store, the model-visible messages, the events appended
so far in this turn, the uid and timestamp counter, and the number of model
calls made. -/
structure LoopState where
  store : Store
  msgs : List OllamaMessage
  appended : List SessionEvent
  ctr : Nat
  calls : Nat

/-- The result of one turn. -/
structure TurnResult where
  assistantText : List Char
  modelCalls : Nat
  store : Store
  appended : List SessionEvent

/-- JSON record logged for one normalized call: tool plus args, with an
undefined args omitted by JSON.stringify. -/
def toolCallContent (tool : List Char) (args : Option Json) : Json :=
  .obj ([("tool".data, .str tool)] ++
    match args with
    | none => []
    | some a => [("args".data, a)])

/-- JSON record logged for one tool result: a toolResult object holding the
tool name spread together with the ok flag and the result or error. -/
def toolResultContent (tool : List Char) (r : ToolRes) : Json :=
  .obj [("toolResult".data,
    .obj ([("tool".data, .str tool), ("ok".data, .bool r.ok)] ++
      (match r.result with
       | none => []
       | some p => [("result".data, p)]) ++
      (match r.error with
       | none => []
       | some e => [("error".data, .str e)])))]

/-- Execute the normalized tool calls of one response in order, appending a
tool-call event and a tool-result event for each, and feeding each result
back as a tool-role message. -/
def execCalls (ctx : TurnCtx) (sid : List Char) :
    List OllamaToolCall → LoopState → LoopState
  | [], st => st
  | tc :: rest, st =>
    let norm := normalizeToolCall (ctx.uidStream st.ctr) tc
    let toolCallEv : SessionEvent :=
      ⟨ctx.uidStream (st.ctr + 1), ctx.tsStream (st.ctr + 1), .assistant,
        emitJson (toolCallContent norm.tool norm.args), .toolCall,
        some ⟨norm.tool, norm.args⟩, none⟩
    let store1 := appendEvent ctx.cwd st.store sid toolCallEv
    let tr := runToolCaught ctx.fsRead ctx.search (workspaceDirOf ctx)
      ⟨norm.tool, norm.args⟩
    let toolResultEv : SessionEvent :=
      ⟨ctx.uidStream (st.ctr + 2), ctx.tsStream (st.ctr + 2), .system,
        emitJson (toolResultContent norm.tool tr.1), .toolResult,
        none, some tr.1⟩
    let store2 := appendEvent ctx.cwd store1 sid toolResultEv
    let msgs2 := st.msgs ++
      [.toolMsg norm.tool norm.id (emitJson (encodeToolRes tr.1))]
    execCalls ctx sid rest
      ⟨store2, msgs2, st.appended ++ [toolCallEv, toolResultEv],
        st.ctr + 3, st.calls⟩

/-- The bounded model round-trip loop of runTurn; the fuel counts the
remaining allowed rounds out of the fixed five. -/
def runLoop (ctx : TurnCtx) (sid : List Char) :
    Nat → LoopState → Except (List Char) TurnResult
  | 0, st =>
    let text := "Tool step limit reached (5).".data
    let ev : SessionEvent :=
      ⟨ctx.uidStream st.ctr, ctx.tsStream st.ctr, .assistant, text, .message,
        none, none⟩
    .ok ⟨text, st.calls, appendEvent ctx.cwd st.store sid ev,
      st.appended ++ [ev]⟩
  | n + 1, st =>
    match ctx.model st.calls with
    | .error e => .error e
    | .ok resp =>
      if resp.toolCalls.isEmpty then
        let ev : SessionEvent :=
          ⟨ctx.uidStream st.ctr, ctx.tsStream st.ctr, .assistant, resp.content,
            .message, none, none⟩
        .ok ⟨resp.content, st.calls + 1, appendEvent ctx.cwd st.store sid ev,
          st.appended ++ [ev]⟩
      else
        let evA : SessionEvent :=
          ⟨ctx.uidStream st.ctr, ctx.tsStream st.ctr, .assistant, resp.content,
            .toolCall, none, none⟩
        let st1 : LoopState :=
          ⟨appendEvent ctx.cwd st.store sid evA, st.msgs,
            st.appended ++ [evA], st.ctr + 1, st.calls + 1⟩
        runLoop ctx sid n (execCalls ctx sid resp.toolCalls st1)

/-- runTurn from runTurn.ts: load history, append the user event, load the
two workspace preambles, assemble the model-visible history and run the
bounded tool loop. -/
def runTurn (ctx : TurnCtx) (sid userText : List Char) (store : Store) :
    Except (List Char) TurnResult :=
  match readEvents ctx.cwd store sid with
  | .error e => .error e
  | .ok prior =>
    let userEv : SessionEvent :=
      ⟨ctx.uidStream 0, ctx.tsStream 0, .user, userText, .message, none, none⟩
    let store1 := appendEvent ctx.cwd store sid userEv
    match ctx.fsRead (workspaceDirOf ctx ++ "/SOUL.md".data),
          ctx.fsRead (workspaceDirOf ctx ++ "/TOOLS.md".data) with
    | .ok soul, .ok tools =>
      let events := prior ++ [encodeEvent userEv]
      let history := events.filterMap jsonToMsg
      let msgs := .chat "system".data (some (.str soul)) ::
        .chat "system".data (some (.str tools)) :: history
      runLoop ctx sid 5 ⟨store1, msgs, [userEv], 1, 0⟩
    | .error e, _ => .error e
    | _, .error e => .error e

/-! ### Claim theorems -/

/-- C3: every conversation identifier is sanitized before use as a storage
key: the storage path is the sessions directory plus one separator plus a
non-empty file name whose characters all come from the sanitizer class, so
no character can be a path separator; hence no raw identifier ever
addresses a file outside the sessions directory, and the storage path is
always a file directly inside it. -/
theorem claim_C3 : ∀ cwd sid : List Char,
    sessionPath cwd sid =
      (cwd ++ "/state/sessions/".data) ++ (safeSessionId sid ++ ".jsonl".data) ∧
    safeSessionId sid ++ ".jsonl".data ≠ [] ∧
    ∀ c ∈ safeSessionId sid ++ ".jsonl".data,
      allowedSessChar c = true ∧ c ≠ '/' ∧ c ≠ '\\' := by
  intro cwd sid
  refine ⟨rfl, by simp, ?_⟩
  intro c hc
  have hall : allowedSessChar c = true := by
    rcases List.mem_append.1 hc with hm | hm
    · unfold safeSessionId at hm
      rw [List.mem_map] at hm
      obtain ⟨d, _, rfl⟩ := hm
      by_cases hd : allowedSessChar d = true
      · rw [if_pos hd]
        exact hd
      · rw [if_neg hd]
        decide
    · fin_cases hm <;> decide
  refine ⟨hall, ?_, ?_⟩
  · intro heq
    rw [heq] at hall
    exact absurd hall (by decide)
  · intro heq
    rw [heq] at hall
    exact absurd hall (by decide)

theorem sanitize_chars (name : Option Json) :
    ∀ c ∈ sanitizeToolName name, allowedToolChar c = true := by
  intro c hc
  unfold sanitizeToolName at hc
  rcases name with _ | j
  · simp at hc
  · cases j with
    | str sx => exact (List.mem_filter.1 hc).2
    | null => simp at hc
    | bool b => simp at hc
    | num l => simp at hc
    | arr xs => simp at hc
    | obj kvs => simp at hc

theorem unknown_chars : ∀ c ∈ ("unknown".data : List Char),
    allowedToolChar c = true := by decide

theorem normalizePlain_chars (id : List Char) (fnName fnArgs : Option Json) :
    ∀ c ∈ (normalizePlain id fnName fnArgs).tool, allowedToolChar c = true := by
  intro c hc
  unfold normalizePlain at hc
  split at hc
  · exact unknown_chars c hc
  · exact sanitize_chars _ c hc

theorem normalizePlain_sentinel (id : List Char) (fnName fnArgs : Option Json)
    (h : sanitizeToolName fnName = []) :
    (normalizePlain id fnName fnArgs).tool = "unknown".data := by
  unfold normalizePlain
  rw [h]
  rfl

theorem normalizePlain_spec (id : List Char) (fnName fnArgs : Option Json) :
    (normalizePlain id fnName fnArgs).args = fnArgs ∧
    (normalizePlain id fnName fnArgs).tool =
      (if (sanitizeToolName fnName).isEmpty then "unknown".data
       else sanitizeToolName fnName) := by
  unfold normalizePlain
  split
  · exact ⟨rfl, rfl⟩
  · exact ⟨rfl, rfl⟩

/-- Does the descriptor take the indirection branch of normalizeToolCall:
its arguments value is an object whose tool field is a string. -/
def isIndirection (tc : OllamaToolCall) : Bool :=
  match tc.fnArgs with
  | some (.obj kvs) =>
    match jlookup kvs "tool".data with
    | some (.str _) => true
    | _ => false
  | _ => false

theorem normalizeToolCall_eq_obj (uid : List Char) (tcid : Option (List Char))
    (fnName : Option Json) (kvs : List (List Char × Json)) :
    normalizeToolCall uid ⟨tcid, fnName, some (.obj kvs)⟩ =
      (match jlookup kvs "tool".data with
       | some (.str tname) =>
         (⟨normIdOf uid tcid, sanitizeToolName (some (.str tname)),
           jlookup kvs "args".data⟩ : NormCall)
       | _ => normalizePlain (normIdOf uid tcid) fnName (some (.obj kvs))) := rfl

theorem isIndirection_eq_obj (tcid : Option (List Char)) (fnName : Option Json)
    (kvs : List (List Char × Json)) :
    isIndirection ⟨tcid, fnName, some (.obj kvs)⟩ =
      (match jlookup kvs "tool".data with
       | some (.str _) => true
       | _ => false) := rfl

theorem normalizeToolCall_ind (uid : List Char) (tc : OllamaToolCall)
    (kvs : List (List Char × Json)) (tname : List Char)
    (hargs : tc.fnArgs = some (.obj kvs))
    (hlk : jlookup kvs "tool".data = some (.str tname)) :
    normalizeToolCall uid tc =
      ⟨normIdOf uid tc.id, sanitizeToolName (some (.str tname)),
        jlookup kvs "args".data⟩ := by
  rcases tc with ⟨tcid, fnName, fnArgs⟩
  simp only [] at hargs
  subst hargs
  rw [normalizeToolCall_eq_obj, hlk]

theorem normalizeToolCall_plain (uid : List Char) (tc : OllamaToolCall)
    (h : isIndirection tc = false) :
    normalizeToolCall uid tc =
      normalizePlain (normIdOf uid tc.id) tc.fnName tc.fnArgs := by
  rcases tc with ⟨tcid, fnName, fnArgs⟩
  rcases fnArgs with _ | j
  · rfl
  · cases j with
    | obj kvs =>
      rw [isIndirection_eq_obj] at h
      rw [normalizeToolCall_eq_obj]
      rcases hlk : jlookup kvs "tool".data with _ | v
      · rfl
      · cases v with
        | str tname =>
          rw [hlk] at h
          simp at h
        | null => rfl
        | bool b => rfl
        | num l => rfl
        | arr xs => rfl
        | obj kvs2 => rfl
    | null => rfl
    | bool b => rfl
    | num l => rfl
    | str sx => rfl
    | arr xs => rfl

theorem isIndirection_true (tc : OllamaToolCall) (h : isIndirection tc = true) :
    ∃ kvs tname, tc.fnArgs = some (.obj kvs) ∧
      jlookup kvs "tool".data = some (.str tname) := by
  rcases tc with ⟨tcid, fnName, fnArgs⟩
  rcases fnArgs with _ | j
  · rw [show isIndirection ⟨tcid, fnName, none⟩ = false from rfl] at h
    simp at h
  · cases j with
    | obj kvs =>
      rw [isIndirection_eq_obj] at h
      rcases hlk : jlookup kvs "tool".data with _ | v
      · rw [hlk] at h
        simp at h
      · cases v with
        | str tname => exact ⟨kvs, tname, rfl, hlk⟩
        | null => rw [hlk] at h; simp at h
        | bool b => rw [hlk] at h; simp at h
        | num l => rw [hlk] at h; simp at h
        | arr xs => rw [hlk] at h; simp at h
        | obj kvs2 => rw [hlk] at h; simp at h
    | null =>
      rw [show isIndirection ⟨tcid, fnName, some .null⟩ = false from rfl] at h
      simp at h
    | bool b =>
      rw [show isIndirection ⟨tcid, fnName, some (.bool b)⟩ = false from rfl] at h
      simp at h
    | num l =>
      rw [show isIndirection ⟨tcid, fnName, some (.num l)⟩ = false from rfl] at h
      simp at h
    | str sx =>
      rw [show isIndirection ⟨tcid, fnName, some (.str sx)⟩ = false from rfl] at h
      simp at h
    | arr xs =>
      rw [show isIndirection ⟨tcid, fnName, some (.arr xs)⟩ = false from rfl] at h
      simp at h

/-- C4 counterexample: a descriptor in the indirection encoding whose inner
tool name sanitizes to the empty string yields the empty tool name, not the
sentinel unknown name the claim requires. -/
theorem claim_C4_counterexample :
    (normalizeToolCall "u1".data
      ⟨none, some (.str "outer".data),
        some (.obj [("tool".data, .str "!!!".data), ("args".data, .null)])⟩).tool
      = [] := by decide

/-- C4 as amended: every character of a normalized tool name lies in the
class [A-Za-z0-9._-]; in the plain encoding an empty sanitized outer name
maps to the sentinel unknown rather than being dropped; but in the
indirection encoding the sanitized inner tool name is carried verbatim,
empty or not. -/
theorem claim_C4 : ∀ (uid : List Char) (tc : OllamaToolCall),
    (∀ c ∈ (normalizeToolCall uid tc).tool, allowedToolChar c = true) ∧
    (isIndirection tc = false → sanitizeToolName tc.fnName = [] →
      (normalizeToolCall uid tc).tool = "unknown".data) ∧
    (∀ kvs tname, tc.fnArgs = some (.obj kvs) →
      jlookup kvs "tool".data = some (.str tname) →
      (normalizeToolCall uid tc).tool = sanitizeToolName (some (.str tname))) := by
  intro uid tc
  refine ⟨?_, ?_, ?_⟩
  · intro c hc
    by_cases hind : isIndirection tc = true
    · obtain ⟨kvs, tname, hargs, hlk⟩ := isIndirection_true tc hind
      rw [normalizeToolCall_ind uid tc kvs tname hargs hlk] at hc
      simp only [] at hc
      exact sanitize_chars _ c hc
    · rw [normalizeToolCall_plain uid tc (by simpa using hind)] at hc
      exact normalizePlain_chars _ _ _ c hc
  · intro hind hsan
    rw [normalizeToolCall_plain uid tc hind]
    exact normalizePlain_sentinel _ _ _ hsan
  · intro kvs tname hargs hlk
    rw [normalizeToolCall_ind uid tc kvs tname hargs hlk]

/-- C4 witness: in the plain encoding a name that sanitizes to nothing
yields the sentinel unknown tool name. -/
theorem claim_C4_witness :
    (normalizeToolCall "u".data
      ⟨none, some (.str "<<>>".data), none⟩).tool = "unknown".data := by
  have h := claim_C4 "u".data ⟨none, some (.str "<<>>".data), none⟩
  exact h.2.1 (by decide) (by decide)

/-- C5 counterexample: a descriptor whose arguments object has a string
tool field but no args field still takes the indirection branch, so the
canonical name is the inner tool name, not the outer function name the
claim requires for a descriptor without an args field. -/
theorem claim_C5_counterexample :
    (normalizeToolCall "u".data
      ⟨none, some (.str "outerName".data),
        some (.obj [("tool".data, .str "X".data)])⟩).tool = "X".data ∧
    (normalizeToolCall "u".data
      ⟨none, some (.str "outerName".data),
        some (.obj [("tool".data, .str "X".data)])⟩).tool ≠ "outerName".data := by
  refine ⟨by decide, by decide⟩

/-- C5 as amended: the indirection branch triggers exactly when the
arguments value is an object whose tool field is a string, whether or not
an args field is present; it yields the sanitized inner tool name and the
inner args field (undefined when absent). Every other descriptor keeps its
outer function name (sanitized, with the sentinel for an empty result) and
its arguments verbatim. -/
theorem claim_C5 : ∀ (uid : List Char) (tc : OllamaToolCall),
    (∀ kvs tname, tc.fnArgs = some (.obj kvs) →
      jlookup kvs "tool".data = some (.str tname) →
      (normalizeToolCall uid tc).tool = sanitizeToolName (some (.str tname)) ∧
      (normalizeToolCall uid tc).args = jlookup kvs "args".data) ∧
    (isIndirection tc = false →
      (normalizeToolCall uid tc).args = tc.fnArgs ∧
      (normalizeToolCall uid tc).tool =
        (if (sanitizeToolName tc.fnName).isEmpty then "unknown".data
         else sanitizeToolName tc.fnName)) := by
  intro uid tc
  constructor
  · intro kvs tname hargs hlk
    rw [normalizeToolCall_ind uid tc kvs tname hargs hlk]
    exact ⟨rfl, rfl⟩
  · intro hind
    rw [normalizeToolCall_plain uid tc hind]
    exact normalizePlain_spec _ _ _

/-- C5 witness: the indirection branch at a concrete descriptor with both
tool and args fields present. -/
theorem claim_C5_witness :
    (normalizeToolCall "u".data
      ⟨some "id1".data, some (.str "outer".data),
        some (.obj [("tool".data, .str "X".data), ("args".data, .null)])⟩).tool
        = "X".data ∧
    (normalizeToolCall "u".data
      ⟨some "id1".data, some (.str "outer".data),
        some (.obj [("tool".data, .str "X".data), ("args".data, .null)])⟩).args
        = some .null := by
  have h := (claim_C5 "u".data
    ⟨some "id1".data, some (.str "outer".data),
      some (.obj [("tool".data, .str "X".data), ("args".data, .null)])⟩).1
    [("tool".data, .str "X".data), ("args".data, .null)] "X".data rfl (by decide)
  exact ⟨h.1.trans (by decide), h.2.trans (by decide)⟩

/-- C6: the inline-text recognizer yields exactly one canonical call iff
the trimmed text is a single brace-delimited JSON object with a non-empty
string tool field and a present (possibly null) args field; the three
concrete texts of the specification behave as stated. -/
theorem claim_C6 : (∀ txt : List Char,
    (∃ call, tryParseToolCall txt = some call) ↔
      (∃ kvs s, (trimL txt).head? = some lbrace ∧
        (trimL txt).getLast? = some rbrace ∧
        parseJson (trimL txt) = some (.obj kvs) ∧
        jlookup kvs "tool".data = some (.str s) ∧ s ≠ [] ∧
        hasKey kvs "args".data = true)) ∧
    tryParseToolCall
        ("\x7b\"tool\":\"fs.readText\",\"args\":\x7b\"path\":\"a.txt\"\x7d\x7d".data) =
      some ⟨"fs.readText".data, some (.obj [("path".data, .str "a.txt".data)])⟩ ∧
    tryParseToolCall "hello there".data = none ∧
    tryParseToolCall "\x7b\"foo\":1\x7d".data = none := by
  refine ⟨?_, by decide, by decide, by decide⟩
  intro txt
  unfold tryParseToolCall
  rcases htr : trimL txt with _ | ⟨c, t2⟩
  · constructor
    · rintro ⟨call, h⟩
      simp at h
    · rintro ⟨kvs, s, h1, _⟩
      simp at h1
  · simp only []
    by_cases hc : c = lbrace
    · subst hc
      rw [if_neg (by simp)]
      by_cases hlast : (lbrace :: t2).getLast? = some rbrace
      · rw [if_neg (by simp [hlast])]
        rcases hp : parseJson (lbrace :: t2) with _ | v
        · constructor
          · rintro ⟨call, h⟩
            simp at h
          · rintro ⟨kvs, s, _, _, h3, _⟩
            simp at h3
        · cases v with
          | obj kvs =>
            rcases hlk : jlookup kvs "tool".data with _ | w
            · constructor
              · rintro ⟨call, h⟩
                simp only [] at h
                rw [hlk] at h
                simp at h
              · rintro ⟨kvs2, s, _, _, h3, h4, _⟩
                have hk : kvs2 = kvs := by
                  simp only [Option.some.injEq, Json.obj.injEq] at h3
                  exact h3.symm
                subst hk
                rw [hlk] at h4
                simp at h4
            · cases w with
              | str s0 =>
                by_cases hs0 : s0.isEmpty
                · constructor
                  · rintro ⟨call, h⟩
                    simp only [] at h
                    rw [hlk] at h
                    simp only [] at h
                    rw [if_pos hs0] at h
                    simp at h
                  · rintro ⟨kvs2, s, _, _, h3, h4, h5, _⟩
                    have hk : kvs2 = kvs := by
                      simp only [Option.some.injEq, Json.obj.injEq] at h3
                      exact h3.symm
                    subst hk
                    rw [hlk] at h4
                    simp only [Option.some.injEq, Json.str.injEq] at h4
                    subst h4
                    rw [List.isEmpty_iff] at hs0
                    exact absurd hs0 h5
                · by_cases hk : hasKey kvs "args".data = true
                  · constructor
                    · intro _
                      refine ⟨kvs, s0, rfl, hlast, rfl, hlk, ?_, hk⟩
                      intro he
                      rw [he] at hs0
                      exact hs0 rfl
                    · intro _
                      refine ⟨⟨s0, jlookup kvs "args".data⟩, ?_⟩
                      simp only []
                      rw [hlk]
                      simp only []
                      rw [if_neg hs0, if_pos hk]
                  · constructor
                    · rintro ⟨call, h⟩
                      simp only [] at h
                      rw [hlk] at h
                      simp only [] at h
                      rw [if_neg hs0, if_neg hk] at h
                      simp at h
                    · rintro ⟨kvs2, s, _, _, h3, h4, _, h6⟩
                      have hkk : kvs2 = kvs := by
                        simp only [Option.some.injEq, Json.obj.injEq] at h3
                        exact h3.symm
                      subst hkk
                      exact absurd h6 hk
              | null =>
                constructor
                · rintro ⟨call, h⟩
                  simp only [] at h
                  rw [hlk] at h
                  simp at h
                · rintro ⟨kvs2, s, _, _, h3, h4, _⟩
                  have hkk : kvs2 = kvs := by
                    simp only [Option.some.injEq, Json.obj.injEq] at h3
                    exact h3.symm
                  subst hkk
                  rw [hlk] at h4
                  simp at h4
              | bool b =>
                constructor
                · rintro ⟨call, h⟩
                  simp only [] at h
                  rw [hlk] at h
                  simp at h
                · rintro ⟨kvs2, s, _, _, h3, h4, _⟩
                  have hkk : kvs2 = kvs := by
                    simp only [Option.some.injEq, Json.obj.injEq] at h3
                    exact h3.symm
                  subst hkk
                  rw [hlk] at h4
                  simp at h4
              | num l =>
                constructor
                · rintro ⟨call, h⟩
                  simp only [] at h
                  rw [hlk] at h
                  simp at h
                · rintro ⟨kvs2, s, _, _, h3, h4, _⟩
                  have hkk : kvs2 = kvs := by
                    simp only [Option.some.injEq, Json.obj.injEq] at h3
                    exact h3.symm
                  subst hkk
                  rw [hlk] at h4
                  simp at h4
              | arr xs =>
                constructor
                · rintro ⟨call, h⟩
                  simp only [] at h
                  rw [hlk] at h
                  simp at h
                · rintro ⟨kvs2, s, _, _, h3, h4, _⟩
                  have hkk : kvs2 = kvs := by
                    simp only [Option.some.injEq, Json.obj.injEq] at h3
                    exact h3.symm
                  subst hkk
                  rw [hlk] at h4
                  simp at h4
              | obj kvs3 =>
                constructor
                · rintro ⟨call, h⟩
                  simp only [] at h
                  rw [hlk] at h
                  simp at h
                · rintro ⟨kvs2, s, _, _, h3, h4, _⟩
                  have hkk : kvs2 = kvs := by
                    simp only [Option.some.injEq, Json.obj.injEq] at h3
                    exact h3.symm
                  subst hkk
                  rw [hlk] at h4
                  simp at h4
          | null =>
            constructor
            · rintro ⟨call, h⟩
              simp at h
            · rintro ⟨kvs2, s, _, _, h3, _⟩
              simp at h3
          | bool b =>
            constructor
            · rintro ⟨call, h⟩
              simp at h
            · rintro ⟨kvs2, s, _, _, h3, _⟩
              simp at h3
          | num l =>
            constructor
            · rintro ⟨call, h⟩
              simp at h
            · rintro ⟨kvs2, s, _, _, h3, _⟩
              simp at h3
          | str sx =>
            constructor
            · rintro ⟨call, h⟩
              simp at h
            · rintro ⟨kvs2, s, _, _, h3, _⟩
              simp at h3
          | arr xs =>
            constructor
            · rintro ⟨call, h⟩
              simp at h
            · rintro ⟨kvs2, s, _, _, h3, _⟩
              simp at h3
      · rw [if_pos (by simpa using hlast)]
        constructor
        · rintro ⟨call, h⟩
          simp at h
        · rintro ⟨kvs, s, _, h2, _⟩
          exact absurd h2 hlast
    · rw [if_pos hc]
      constructor
      · rintro ⟨call, h⟩
        simp at h
      · rintro ⟨kvs, s, h1, _⟩
        simp only [List.head?_cons, Option.some.injEq] at h1
        exact absurd h1 hc

theorem resolveWorkspacePath_rejects (wsDir rel : List Char)
    (hws : normSegs (splitOnChar '/' wsDir) ≠ [])
    (hbad : rel = [] ∨ isAbsolute rel = true ∨
      strictDescendant (normSegs (splitOnChar '/' wsDir))
        (normSegs (splitOnChar '/' wsDir ++ splitOnChar '/' rel)) = false) :
    ∃ e, resolveWorkspacePath wsDir rel = .error e ∧
      (e = "args.path must be a non-empty string".data ∨
       e = "Absolute paths are not allowed".data ∨
       e = "Path escapes workspace".data) := by
  by_cases h0 : rel = []
  · refine ⟨_, ?_, .inl rfl⟩
    unfold resolveWorkspacePath
    rw [if_pos h0]
  · by_cases h1 : isAbsolute rel = true
    · refine ⟨_, ?_, .inr (.inl rfl)⟩
      unfold resolveWorkspacePath
      rw [if_neg h0, if_pos h1]
    · rcases hbad with h | h | h
      · exact absurd h h0
      · exact absurd h h1
      · refine ⟨_, ?_, .inr (.inr rfl)⟩
        unfold resolveWorkspacePath
        rw [if_neg h0, if_neg h1]
        have hA : ∀ s ∈ normSegs (splitOnChar '/' wsDir), s ≠ [] ∧ '/' ∉ s :=
          normSegs_props _ (splitOnChar_no_sep '/' wsDir)
        have hB : ∀ s ∈ normSegs (splitOnChar '/' wsDir ++ splitOnChar '/' rel),
            s ≠ [] ∧ '/' ∉ s := by
          refine normSegs_props _ ?_
          intro l hl
          rcases List.mem_append.1 hl with hm | hm
          · exact splitOnChar_no_sep '/' wsDir l hm
          · exact splitOnChar_no_sep '/' rel l hm
        have hiff := startsWith_render_iff
          (normSegs (splitOnChar '/' wsDir))
          (normSegs (splitOnChar '/' wsDir ++ splitOnChar '/' rel)) hA hB hws
        have hrp : resolvePath wsDir rel =
            renderAbs (normSegs (splitOnChar '/' wsDir ++ splitOnChar '/' rel)) := by
          unfold resolvePath
          rw [if_neg h1]
        rw [hrp]
        rw [if_neg ?_]
        intro hcontra
        rw [hiff] at hcontra
        rw [h] at hcontra
        exact absurd hcontra (by simp)

/-- C1: for a canonical fs.readText call, a path argument that is empty, an
absolute path, or resolves (against the workspace root) to anything that is
not a strict segment descendant of that root, is rejected with one of the
specific sandbox errors, and no filesystem path is read. -/
theorem claim_C1
    (fsRead : List Char → Except (List Char) (List Char))
    (search : Json → Except (List Char) Json)
    (wsDir : List Char) (kvs : List (List Char × Json)) (rel : List Char)
    (hws : normSegs (splitOnChar '/' wsDir) ≠ [])
    (hpath : jlookup kvs "path".data = some (.str rel))
    (hbad : rel = [] ∨ isAbsolute rel = true ∨
      strictDescendant (normSegs (splitOnChar '/' wsDir))
        (normSegs (splitOnChar '/' wsDir ++ splitOnChar '/' rel)) = false) :
    ∃ e, runToolCaught fsRead search wsDir ⟨"fs.readText".data, some (.obj kvs)⟩ =
        (⟨false, none, some e⟩, []) ∧
      (e = "args.path must be a non-empty string".data ∨
       e = "Absolute paths are not allowed".data ∨
       e = "Path escapes workspace".data) := by
  obtain ⟨e, he, hwhich⟩ := resolveWorkspacePath_rejects wsDir rel hws hbad
  refine ⟨e, ?_, hwhich⟩
  unfold runToolCaught runTool
  rw [if_neg (by simp)]
  rw [if_pos rfl]
  simp only []
  rw [hpath]
  simp only []
  rw [he]

/-- C2 counterexample: runTool itself propagates a thrown error across its
boundary on a rejected absolute path, rather than returning an ok:false
result, so the claim as stated about runTool is false. -/
theorem claim_C2_counterexample :
    runTool (fun _ => .error "ENOENT".data) (fun _ => .error "offline".data)
      "/root/claw/workspaces/default".data
      ⟨"fs.readText".data, some (.obj [("path".data, .str "/etc/passwd".data)])⟩ =
      (.error "Absolute paths are not allowed".data, []) := by rfl

theorem runTool_ok_shape
    (fsRead : List Char → Except (List Char) (List Char))
    (search : Json → Except (List Char) Json)
    (ws : List Char) (call : ToolCall) :
    ∀ r acc, runTool fsRead search ws call = (.ok r, acc) →
      (r.ok = true ∧ r.error = none) ∨ (r.ok = false ∧ ∃ e, r.error = some e) := by
  intro r acc h
  unfold runTool at h
  split at h
  · simp only [Prod.mk.injEq, Except.ok.injEq] at h
    rw [← h.1]
    right
    exact ⟨rfl, _, rfl⟩
  · split at h
    · split at h
      · split at h
        · split at h
          · simp at h
          · split at h
            · simp at h
            · simp only [Prod.mk.injEq, Except.ok.injEq] at h
              rw [← h.1]
              left
              exact ⟨rfl, rfl⟩
        · simp only [Prod.mk.injEq, Except.ok.injEq] at h
          rw [← h.1]
          right
          exact ⟨rfl, _, rfl⟩
      · simp only [Prod.mk.injEq, Except.ok.injEq] at h
        rw [← h.1]
        right
        exact ⟨rfl, _, rfl⟩
    · split at h
      · split at h
        · split at h
          · simp only [Prod.mk.injEq, Except.ok.injEq] at h
            rw [← h.1]
            right
            exact ⟨rfl, _, rfl⟩
          · split at h
            · simp only [Prod.mk.injEq, Except.ok.injEq] at h
              rw [← h.1]
              left
              exact ⟨rfl, rfl⟩
            · simp only [Prod.mk.injEq, Except.ok.injEq] at h
              rw [← h.1]
              right
              exact ⟨rfl, _, rfl⟩
        · simp only [Prod.mk.injEq, Except.ok.injEq] at h
          rw [← h.1]
          right
          exact ⟨rfl, _, rfl⟩
      · simp only [Prod.mk.injEq, Except.ok.injEq] at h
        rw [← h.1]
        right
        exact ⟨rfl, _, rfl⟩

/-- C2 as amended: runTool itself can propagate a thrown error (path
rejection and failed reads, see the counterexample), but at the boundary
the orchestrator actually uses, the try/catch wrapper around runTool,
every failure mode surfaces as a returned ok:false result carrying an
error message and every success as ok:true with no error; no exception
escapes that boundary. -/
theorem claim_C2 :
    ∀ (fsRead : List Char → Except (List Char) (List Char))
      (search : Json → Except (List Char) Json)
      (ws : List Char) (call : ToolCall),
      ((runToolCaught fsRead search ws call).1.ok = true ∧
        (runToolCaught fsRead search ws call).1.error = none) ∨
      ((runToolCaught fsRead search ws call).1.ok = false ∧
        ∃ e, (runToolCaught fsRead search ws call).1.error = some e) := by
  intro fsRead search ws call
  unfold runToolCaught
  rcases hrt : runTool fsRead search ws call with ⟨res, acc⟩
  cases res with
  | error e =>
    right
    exact ⟨rfl, e, rfl⟩
  | ok r =>
    simp only []
    have := runTool_ok_shape fsRead search ws call r acc hrt
    rcases this with ⟨h1, h2⟩ | ⟨h1, e, h2⟩
    · left
      exact ⟨h1, h2⟩
    · right
      exact ⟨h1, e, h2⟩

theorem claim_C1_witness :
    (normSegs (splitOnChar '/' "/w/workspaces/default".data) ≠ [] ∧
      jlookup [("path".data, Json.str "../../etc/passwd".data)] "path".data =
        some (.str "../../etc/passwd".data) ∧
      strictDescendant (normSegs (splitOnChar '/' "/w/workspaces/default".data))
        (normSegs (splitOnChar '/' "/w/workspaces/default".data ++
          splitOnChar '/' "../../etc/passwd".data)) = false) ∧
    ∃ e, runToolCaught (fun _ => .ok "secret".data) (fun _ => .error "offline".data)
        "/w/workspaces/default".data
        ⟨"fs.readText".data,
          some (.obj [("path".data, .str "../../etc/passwd".data)])⟩ =
        (⟨false, none, some e⟩, []) ∧
      (e = "args.path must be a non-empty string".data ∨
       e = "Absolute paths are not allowed".data ∨
       e = "Path escapes workspace".data) :=
  ⟨⟨by decide, by decide, by decide⟩,
    claim_C1 (fun _ => .ok "secret".data) (fun _ => .error "offline".data)
      "/w/workspaces/default".data [("path".data, Json.str "../../etc/passwd".data)]
      "../../etc/passwd".data (by decide) (by decide) (.inr (.inr (by decide)))⟩

/-- C8: for every conversation id and finite sequence of well-formed events
appended to a conversation whose file did not yet exist, readEvents returns
exactly the appended records in append order (and decoding each record gives
back the original event); a repeated read with no intervening append returns
an identical result (readEvents is a pure function of the store); and a read
of a never-written conversation returns the empty list, not an error. -/
theorem claim_C8 (cwd : List Char) (store : Store) (sid : List Char)
    (evs : List SessionEvent)
    (hfresh : store (sessionPath cwd sid) = none)
    (hwf : ∀ ev ∈ evs, wfEvent ev = true) :
    readEvents cwd (appendAll cwd store sid evs) sid =
        .ok (evs.map encodeEvent) ∧
    (evs.map encodeEvent).map decodeEvent = evs.map some ∧
    readEvents cwd (appendAll cwd store sid evs) sid =
        readEvents cwd (appendAll cwd store sid evs) sid ∧
    readEvents cwd store sid = .ok [] := by
  refine ⟨readEvents_appendAll cwd store sid evs hfresh hwf, ?_, rfl, ?_⟩
  · rw [List.map_map]
    exact List.map_congr_left (fun ev _ => decode_encodeEvent ev)
  · unfold readEvents
    rw [hfresh]

def evA : SessionEvent :=
  ⟨"a".data, "t".data, .user, "hi".data, .message, none, none⟩

def evB : SessionEvent :=
  ⟨"b".data, "u".data, .assistant, "ok".data, .message, none, none⟩

theorem claim_C8_witness :
    ((fun _ => none : Store) (sessionPath "/cwd".data "s1".data) = none ∧
      ∀ ev ∈ [evA, evB], wfEvent ev = true) ∧
    (readEvents "/cwd".data
        (appendAll "/cwd".data (fun _ => none) "s1".data [evA, evB]) "s1".data =
      .ok ([evA, evB].map encodeEvent) ∧
      ([evA, evB].map encodeEvent).map decodeEvent = [evA, evB].map some ∧
      readEvents "/cwd".data
        (appendAll "/cwd".data (fun _ => none) "s1".data [evA, evB]) "s1".data =
      readEvents "/cwd".data
        (appendAll "/cwd".data (fun _ => none) "s1".data [evA, evB]) "s1".data ∧
      readEvents "/cwd".data (fun _ => none) "s1".data = .ok []) :=
  ⟨⟨rfl, by decide⟩,
    claim_C8 "/cwd".data (fun _ => none) "s1".data [evA, evB] rfl (by decide)⟩

/-- A store holding one complete, well-formed event line. -/
def goodStore : Store := fun p =>
  if p = sessionPath "/cwd".data "s1".data then
    some (emitJson (encodeEvent evA) ++ [nlChar])
  else none

/-- The same store after an aborted turn left a truncated partial trailing
line (a prefix of a JSON record, no closing brace, no newline). -/
def truncStore : Store := fun p =>
  if p = sessionPath "/cwd".data "s1".data then
    some (emitJson (encodeEvent evA) ++ [nlChar] ++ "\x7b\"id\":\"b".data)
  else none

/-- C9: the reader is not forward-tolerant. With only the complete record
present, readEvents returns it; after an aborted turn appends a truncated
partial trailing line, readEvents rethrows the JSON parse failure and the
whole read fails, returning none of the well-formed events instead of
skipping the malformed tail. -/
theorem claim_C9 :
    readEvents "/cwd".data goodStore "s1".data = .ok [encodeEvent evA] ∧
    readEvents "/cwd".data truncStore "s1".data =
      .error "SyntaxError: Unexpected token in JSON".data := by
  exact ⟨rfl, rfl⟩

/-- C10: when the model response carries no structured tool_calls, runTurn
takes that response as the final assistant answer and appends it as a plain
message event, even when the response content is exactly an inline JSON
tool-call object (tryParseToolCall succeeds on it): the inline-text parser
plays no role in dispatch, no tool-call or tool-result event is appended,
and exactly one model call is made. -/
theorem claim_C10 (ctx : TurnCtx) (sid userText : List Char) (store : Store)
    (prior : List Json) (soul tools content : List Char) (tc : ToolCall)
    (hread : readEvents ctx.cwd store sid = .ok prior)
    (hsoul : ctx.fsRead (workspaceDirOf ctx ++ "/SOUL.md".data) = .ok soul)
    (htools : ctx.fsRead (workspaceDirOf ctx ++ "/TOOLS.md".data) = .ok tools)
    (hmodel : ctx.model 0 = .ok ⟨content, []⟩)
    (hinline : tryParseToolCall content = some tc) :
    runTurn ctx sid userText store =
      .ok ⟨content, 1,
        appendEvent ctx.cwd
          (appendEvent ctx.cwd store sid
            ⟨ctx.uidStream 0, ctx.tsStream 0, .user, userText, .message,
              none, none⟩) sid
          ⟨ctx.uidStream 1, ctx.tsStream 1, .assistant, content, .message,
            none, none⟩,
        [⟨ctx.uidStream 0, ctx.tsStream 0, .user, userText, .message,
            none, none⟩,
         ⟨ctx.uidStream 1, ctx.tsStream 1, .assistant, content, .message,
            none, none⟩]⟩ := by
  unfold runTurn
  rw [hread]
  simp only []
  rw [hsoul, htools]
  simp only []
  rw [runLoop.eq_def]
  simp only []
  rw [hmodel]
  simp only [List.isEmpty_nil, if_true]
  simp

def inlineContent : List Char :=
  "\x7b\"tool\":\"fs.readText\",\"args\":\x7b\"path\":\"notes.md\"\x7d\x7d".data

def ctxT : TurnCtx :=
  ⟨fun _ => .ok ⟨inlineContent, []⟩, fun _ => .ok "S".data,
    fun _ => .error "off".data, fun _ => "u".data, fun _ => "t".data,
    "/c".data, "a".data⟩

theorem claim_C10_witness :
    (readEvents ctxT.cwd (fun _ => none) "s".data = .ok [] ∧
      ctxT.model 0 = .ok ⟨inlineContent, []⟩ ∧
      tryParseToolCall inlineContent =
        some ⟨"fs.readText".data,
          some (.obj [("path".data, .str "notes.md".data)])⟩) ∧
    runTurn ctxT "s".data "hi".data (fun _ => none) =
      .ok ⟨inlineContent, 1,
        appendEvent ctxT.cwd
          (appendEvent ctxT.cwd (fun _ => none) "s".data
            ⟨ctxT.uidStream 0, ctxT.tsStream 0, .user, "hi".data, .message,
              none, none⟩) "s".data
          ⟨ctxT.uidStream 1, ctxT.tsStream 1, .assistant, inlineContent,
            .message, none, none⟩,
        [⟨ctxT.uidStream 0, ctxT.tsStream 0, .user, "hi".data, .message,
            none, none⟩,
         ⟨ctxT.uidStream 1, ctxT.tsStream 1, .assistant, inlineContent,
            .message, none, none⟩]⟩ :=
  ⟨⟨rfl, rfl, rfl⟩,
    claim_C10 ctxT "s".data "hi".data (fun _ => none) [] "S".data "S".data
      inlineContent
      ⟨"fs.readText".data, some (.obj [("path".data, .str "notes.md".data)])⟩
      rfl rfl rfl rfl rfl⟩

theorem execCalls_calls (ctx : TurnCtx) (sid : List Char) :
    ∀ (tcs : List OllamaToolCall) (st : LoopState),
      (execCalls ctx sid tcs st).calls = st.calls := by
  intro tcs
  induction tcs with
  | nil => intro st; rfl
  | cons tc rest ih =>
    intro st
    rw [execCalls.eq_def]
    simp only []
    rw [ih]

theorem runLoop_limit (ctx : TurnCtx) (sid : List Char) :
    ∀ (n : Nat) (st : LoopState),
      (∀ k, k < n → ∃ resp, ctx.model (st.calls + k) = .ok resp ∧
        resp.toolCalls.isEmpty = false) →
      ∃ r, runLoop ctx sid n st = .ok r ∧
        r.modelCalls = st.calls + n ∧
        r.assistantText = "Tool step limit reached (5).".data ∧
        ∃ pre ev, r.appended = pre ++ [ev] ∧
          ev.content = "Tool step limit reached (5).".data ∧
          ev.type = .message ∧ ev.role = .assistant := by
  intro n
  induction n with
  | zero =>
    intro st _
    refine ⟨_, rfl, by simp, rfl, st.appended, _, rfl, rfl, rfl, rfl⟩
  | succ n ih =>
    intro st h
    obtain ⟨resp, hm, hne⟩ := h 0 (Nat.succ_pos n)
    rw [Nat.add_zero] at hm
    rw [runLoop.eq_def]
    simp only []
    rw [hm]
    simp only []
    rw [hne]
    simp only [Bool.false_eq_true, if_false]
    have hc : (execCalls ctx sid resp.toolCalls
        ⟨appendEvent ctx.cwd st.store sid
          ⟨ctx.uidStream st.ctr, ctx.tsStream st.ctr, .assistant, resp.content,
            .toolCall, none, none⟩, st.msgs,
          st.appended ++ [⟨ctx.uidStream st.ctr, ctx.tsStream st.ctr,
            .assistant, resp.content, .toolCall, none, none⟩],
          st.ctr + 1, st.calls + 1⟩).calls = st.calls + 1 :=
      execCalls_calls ctx sid resp.toolCalls _
    obtain ⟨r, hr, hcalls, htext, hap⟩ := ih _ (by
      intro k hk
      rw [hc]
      have := h (k + 1) (Nat.succ_lt_succ hk)
      rw [show st.calls + 1 + k = st.calls + (k + 1) by omega]
      exact this)
    refine ⟨r, hr, ?_, htext, hap⟩
    rw [hcalls, hc]
    omega

theorem runLoop_stop (ctx : TurnCtx) (sid : List Char) :
    ∀ (m n : Nat) (st : LoopState) (resp : ModelResp),
      (∀ k, k < m → ∃ r2, ctx.model (st.calls + k) = .ok r2 ∧
        r2.toolCalls.isEmpty = false) →
      ctx.model (st.calls + m) = .ok resp →
      resp.toolCalls.isEmpty = true →
      m < n →
      ∃ r, runLoop ctx sid n st = .ok r ∧
        r.modelCalls = st.calls + m + 1 ∧
        r.assistantText = resp.content ∧
        ∃ pre ev, r.appended = pre ++ [ev] ∧ ev.content = resp.content ∧
          ev.type = .message ∧ ev.role = .assistant := by
  intro m
  induction m with
  | zero =>
    intro n st resp _ hm hemp hlt
    cases n with
    | zero => exact absurd hlt (by omega)
    | succ n =>
      rw [Nat.add_zero] at hm
      rw [runLoop.eq_def]
      simp only []
      rw [hm]
      simp only []
      rw [hemp]
      simp only [if_true]
      refine ⟨_, rfl, by simp, rfl, st.appended, _, rfl, rfl, rfl, rfl⟩
  | succ m ih =>
    intro n st resp h hm hemp hlt
    cases n with
    | zero => exact absurd hlt (by omega)
    | succ n =>
      obtain ⟨r2, hm0, hne⟩ := h 0 (Nat.succ_pos m)
      rw [Nat.add_zero] at hm0
      rw [runLoop.eq_def]
      simp only []
      rw [hm0]
      simp only []
      rw [hne]
      simp only [Bool.false_eq_true, if_false]
      have hc : (execCalls ctx sid r2.toolCalls
          ⟨appendEvent ctx.cwd st.store sid
            ⟨ctx.uidStream st.ctr, ctx.tsStream st.ctr, .assistant, r2.content,
              .toolCall, none, none⟩, st.msgs,
            st.appended ++ [⟨ctx.uidStream st.ctr, ctx.tsStream st.ctr,
              .assistant, r2.content, .toolCall, none, none⟩],
            st.ctr + 1, st.calls + 1⟩).calls = st.calls + 1 :=
        execCalls_calls ctx sid r2.toolCalls _
      obtain ⟨r, hr, hcalls, htext, hap⟩ := ih n _ resp (by
        intro k hk
        rw [hc]
        have := h (k + 1) (Nat.succ_lt_succ hk)
        rw [show st.calls + 1 + k = st.calls + (k + 1) by omega]
        exact this) (by
        rw [hc]
        rw [show st.calls + 1 + m = st.calls + (m + 1) by omega]
        exact hm) hemp (by omega)
      refine ⟨r, hr, ?_, htext, hap⟩
      rw [hcalls, hc]
      omega

/-- C7: in a turn whose model responses all carry at least one tool-call
descriptor, the orchestrator makes exactly five model round-trips (never a
sixth), returns without error, reports the designed limit text as the
answer, and the last appended event is an assistant message event carrying
that text; and a turn whose response on round m (counting from zero, m
below five) carries no tool calls terminates on that round, with m+1 model
calls and that response text as the answer. -/
theorem claim_C7 (ctx : TurnCtx) (sid userText : List Char) (store : Store)
    (prior : List Json) (soul tools : List Char)
    (hread : readEvents ctx.cwd store sid = .ok prior)
    (hsoul : ctx.fsRead (workspaceDirOf ctx ++ "/SOUL.md".data) = .ok soul)
    (htools : ctx.fsRead (workspaceDirOf ctx ++ "/TOOLS.md".data) = .ok tools) :
    ((∀ k, k < 5 → ∃ resp, ctx.model k = .ok resp ∧
        resp.toolCalls.isEmpty = false) →
      ∃ r, runTurn ctx sid userText store = .ok r ∧
        r.modelCalls = 5 ∧
        r.assistantText = "Tool step limit reached (5).".data ∧
        ∃ pre ev, r.appended = pre ++ [ev] ∧
          ev.content = "Tool step limit reached (5).".data ∧
          ev.type = .message ∧ ev.role = .assistant) ∧
    (∀ m resp, m < 5 →
      (∀ k, k < m → ∃ r2, ctx.model k = .ok r2 ∧
        r2.toolCalls.isEmpty = false) →
      ctx.model m = .ok resp → resp.toolCalls.isEmpty = true →
      ∃ r, runTurn ctx sid userText store = .ok r ∧
        r.modelCalls = m + 1 ∧
        r.assistantText = resp.content ∧
        ∃ pre ev, r.appended = pre ++ [ev] ∧ ev.content = resp.content ∧
          ev.type = .message ∧ ev.role = .assistant) := by
  have hrt : runTurn ctx sid userText store = runLoop ctx sid 5
      ⟨appendEvent ctx.cwd store sid
          ⟨ctx.uidStream 0, ctx.tsStream 0, .user, userText, .message,
            none, none⟩,
        .chat "system".data (some (.str soul)) ::
          .chat "system".data (some (.str tools)) ::
          (prior ++ [encodeEvent ⟨ctx.uidStream 0, ctx.tsStream 0, .user,
            userText, .message, none, none⟩]).filterMap jsonToMsg,
        [⟨ctx.uidStream 0, ctx.tsStream 0, .user, userText, .message,
          none, none⟩], 1, 0⟩ := by
    unfold runTurn
    rw [hread]
    simp only []
    rw [hsoul, htools]
  constructor
  · intro hall
    obtain ⟨r, hr, hcalls, htext, hap⟩ := runLoop_limit ctx sid 5
      ⟨appendEvent ctx.cwd store sid
          ⟨ctx.uidStream 0, ctx.tsStream 0, .user, userText, .message,
            none, none⟩,
        .chat "system".data (some (.str soul)) ::
          .chat "system".data (some (.str tools)) ::
          (prior ++ [encodeEvent ⟨ctx.uidStream 0, ctx.tsStream 0, .user,
            userText, .message, none, none⟩]).filterMap jsonToMsg,
        [⟨ctx.uidStream 0, ctx.tsStream 0, .user, userText, .message,
          none, none⟩], 1, 0⟩
      (by
        intro k hk
        show ∃ resp, ctx.model (0 + k) = .ok resp ∧
          resp.toolCalls.isEmpty = false
        rw [Nat.zero_add]
        exact hall k hk)
    refine ⟨r, ?_, by rw [hcalls], htext, hap⟩
    rw [hrt]
    exact hr
  · intro m resp hm hpre hresp hemp
    obtain ⟨r, hr, hcalls, htext, hap⟩ := runLoop_stop ctx sid m 5
      ⟨appendEvent ctx.cwd store sid
          ⟨ctx.uidStream 0, ctx.tsStream 0, .user, userText, .message,
            none, none⟩,
        .chat "system".data (some (.str soul)) ::
          .chat "system".data (some (.str tools)) ::
          (prior ++ [encodeEvent ⟨ctx.uidStream 0, ctx.tsStream 0, .user,
            userText, .message, none, none⟩]).filterMap jsonToMsg,
        [⟨ctx.uidStream 0, ctx.tsStream 0, .user, userText, .message,
          none, none⟩], 1, 0⟩ resp
      (by
        intro k hk
        show ∃ r2, ctx.model (0 + k) = .ok r2 ∧ r2.toolCalls.isEmpty = false
        rw [Nat.zero_add]
        exact hpre k hk)
      (by
        show ctx.model (0 + m) = .ok resp
        rw [Nat.zero_add]
        exact hresp) hemp hm
    refine ⟨r, ?_, by rw [hcalls]; simp, htext, hap⟩
    rw [hrt]
    exact hr

def ctxW : TurnCtx :=
  ⟨fun _ => .ok ⟨[], [⟨none, none, none⟩]⟩, fun _ => .ok "S".data,
    fun _ => .error "off".data, fun _ => "u".data, fun _ => "t".data,
    "/c".data, "a".data⟩

theorem claim_C7_witness :
    (readEvents ctxW.cwd (fun _ => none) "s".data = .ok [] ∧
      ctxW.fsRead (workspaceDirOf ctxW ++ "/SOUL.md".data) = .ok "S".data ∧
      (∀ k, k < 5 → ∃ resp, ctxW.model k = .ok resp ∧
        resp.toolCalls.isEmpty = false)) ∧
    ∃ r, runTurn ctxW "s".data "hi".data (fun _ => none) = .ok r ∧
      r.modelCalls = 5 ∧
      r.assistantText = "Tool step limit reached (5).".data ∧
      ∃ pre ev, r.appended = pre ++ [ev] ∧
        ev.content = "Tool step limit reached (5).".data ∧
        ev.type = .message ∧ ev.role = .assistant :=
  ⟨⟨rfl, rfl, fun _ _ => ⟨⟨[], [⟨none, none, none⟩]⟩, rfl, rfl⟩⟩,
    (claim_C7 ctxW "s".data "hi".data (fun _ => none) [] "S".data "S".data
      rfl rfl rfl).1 (fun _ _ => ⟨⟨[], [⟨none, none, none⟩]⟩, rfl, rfl⟩)⟩

end ClawLite
